import Mathlib

/-!
# BNR exchange-rate analyser: the data pipeline of app.js

A shallow embedding of the data transformations of src/app.js (filtering,
statistics, table view, comparison series, CSV export, XML parsing, data
acquisition, synthetic data) together with theorems about them.

Modelling conventions.

* Strings are Lean strings.  The relational operators of the source compare
  strings code unit by code unit; the embedding compares character by
  character (strLt), which is the same order on text of the Basic
  Multilingual Plane, the only text the application handles (ISO dates,
  currency codes, decimal numerals).
* A value of a record is a rational, the exact value of the double the
  source holds; a rational that is no double stands for the double nearest to
  it, as a decimal literal does (toNum).  The arithmetic whose result is
  printed by toFixed (calculateChange, the comparison series) is the
  arithmetic of the source: every operation returns the double nearest to its
  exact result, ties to even, with overflow to the infinities and NaN for an
  undefined result (roundDouble, jsSub, jsDiv, jsMul), because the rounding
  of toFixed makes the last bit of a quotient visible.  The method toFixed is
  exact on the double it is given and switches to exponent notation from
  10^21 on.  Where no text is made from the result (the average, the clamp of
  the generator, the quotient by a multiplier) the result is the exact value,
  which the double of the source approximates in its last bit.
* The page controls that the source reads (elements.dateStart.value and so
  on) are the fields of Elements; the mutable appState is the record AppState,
  passed explicitly.
* Rendering (innerHTML, Chart.js) is not modelled: each update function
  returns the data it hands to the renderer.
* A rate record of the data model has a date YYYY-MM-DD that names a calendar
  day and a positive value.  The theorems that depend on the order of dates
  (every sort of the source goes through new Date) or on a quotient by a value
  state this as hypotheses (validDate, and posNumber: the value stands for a
  positive finite Number); the others hold for all records.
-/

namespace BNR

/-! ## Data model -/

/-- One rate observation, the object literal pushed by parseXMLData and
generateSimulatedData. -/
structure Record where
  date : String
  currency : String
  value : ℚ
  deriving DecidableEq

/-- The literal CURRENCIES of the source. -/
def CURRENCIES : List String := ["EUR", "USD", "GBP"]

/-- The fields of appState that the data pipeline reads and writes (the chart
handles and the unused dateRange field are left out). -/
structure AppState where
  data : List Record
  filteredData : List Record
  selectedCurrencies : List String
  comparisonCurrencies : List String

/-- The values of the page controls read by the pipeline: the values of the
selected options of currencySelect, and the value of dateStart, dateEnd,
tableSearch and tableSort. -/
structure Elements where
  currencySelect : List String
  dateStart : String
  dateEnd : String
  tableSearch : String
  tableSort : String

/-! ## Strings -/

/-- The comparison behind the operator < on two strings: the first position
where they differ decides, and a proper prefix is smaller. -/
def ltChars : List Char → List Char → Bool
  | [], [] => false
  | [], _ :: _ => true
  | _ :: _, [] => false
  | a :: as, b :: bs =>
    if a < b then true else if b < a then false else ltChars as bs

/-- The source expression a < b on strings. -/
def strLt (a b : String) : Bool := ltChars a.data b.data

/-- The comparison ltChars, on the lists of the code points. -/
def ltNats : List Nat → List Nat → Bool
  | [], [] => false
  | [], _ :: _ => true
  | _ :: _, [] => false
  | a :: as, b :: bs =>
    if a < b then true else if b < a then false else ltNats as bs

/-- Truthiness of a string: every string but the empty one. -/
def truthy (s : String) : Bool := decide (s ≠ "")

/-! ## Filter engine -/

/-- The function applyFilters of the source: reads the selection and the two
date bounds from the controls, stores the selection and the filtered records.
The view updates it then triggers only read the resulting state; those with a
data contract are the functions updateStatistics, updateTable and
updateComparisonChart below. -/
def applyFilters (el : Elements) (st : AppState) : AppState :=
  let selectedCurrencies := el.currencySelect
  let startDate := el.dateStart
  let endDate := el.dateEnd
  { st with
    selectedCurrencies := selectedCurrencies
    filteredData := st.data.filter fun item =>
      if !selectedCurrencies.contains item.currency then false
      else if truthy startDate && strLt item.date startDate then false
      else if truthy endDate && strLt endDate item.date then false
      else true }

/-- The filter predicate in the words of the specification: the currency is
selected, and the date is not before the start bound when there is one, and
not after the end bound when there is one.  The order on strings is the
lexicographic order of the library. -/
def keepSpec (sel : List String) (start stop : String) (r : Record) : Prop :=
  r.currency ∈ sel ∧ (start = "" ∨ start ≤ r.date) ∧ (stop = "" ∨ r.date ≤ stop)

instance (sel : List String) (start stop : String) (r : Record) :
    Decidable (keepSpec sel start stop r) := by
  unfold keepSpec; infer_instance

/-! ## Numbers and their text -/

/-- A Number of the source: a finite double, given by its exact value, one of
the two infinities, or NaN.  The sign of a zero is not kept: the one place
where the source could tell the zeros apart is a quotient by zero. -/
inductive JSNum where
  | fin (q : ℚ)
  | inf (negative : Bool)
  | nan
  deriving DecidableEq

/-- The power 2^k for an integer k. -/
def pow2 (k : Int) : ℚ :=
  if 0 ≤ k then ((2 ^ k.toNat : Nat) : ℚ) else 1 / ((2 ^ (-k).toNat : Nat) : ℚ)

/-- The binary logarithm of n rounded down (0 for n below 2); the first
argument bounds the number of halvings. -/
def log2Nat : Nat → Nat → Nat
  | 0, _ => 0
  | fuel + 1, n => if 2 ≤ n then log2Nat fuel (n / 2) + 1 else 0

/-- The exponent e of a positive rational a: 2^e ≤ a < 2^(e+1). -/
def floorLog2 (a : ℚ) : Int :=
  let k : Int := (log2Nat a.num.natAbs a.num.natAbs : Int) - (log2Nat a.den a.den : Int)
  if pow2 k ≤ a then k else k - 1

/-- The integer nearest to y ≥ 0, the even one when y is half-way. -/
def roundHalfEven (y : ℚ) : Nat :=
  let n := ⌊y⌋.toNat
  let d := y - n
  if d < 1 / 2 then n
  else if 1 / 2 < d then n + 1
  else if n % 2 = 0 then n else n + 1

/-- The rounding of IEEE-754 binary64 arithmetic, round to nearest with ties
to even: the Number that an operation of the source returns when its exact
result is x.  The magnitude is rounded to 53 significant bits (fewer below
2^-1022, where the spacing of the doubles stays 2^-1074), and a magnitude that
rounds to 2^1024 or more overflows to the infinity of its sign. -/
def roundDouble (x : ℚ) : JSNum :=
  if x = 0 then JSNum.fin 0
  else
    let a := |x|
    let e := max (floorLog2 a) (-1022)
    let u := pow2 (e - 52)
    let r := (roundHalfEven (a / u) : ℚ) * u
    if pow2 1024 ≤ r then JSNum.inf (decide (x < 0))
    else JSNum.fin (if x < 0 then -r else r)

/-- The Number that a value of the data model stands for.  The value field
of a record holds the exact value of a double, and then this is that double;
a value written as a decimal such as 4.0042 stands for the double nearest to
it, as the literal does in the source. -/
def toNum (q : ℚ) : JSNum := roundDouble q

/-- The source operator - on two Numbers. -/
def jsSub : JSNum → JSNum → JSNum
  | JSNum.fin a, JSNum.fin b => roundDouble (a - b)
  | JSNum.fin _, JSNum.inf t => JSNum.inf (!t)
  | JSNum.inf s, JSNum.fin _ => JSNum.inf s
  | JSNum.inf s, JSNum.inf t => if s = t then JSNum.nan else JSNum.inf s
  | JSNum.nan, _ => JSNum.nan
  | _, JSNum.nan => JSNum.nan

/-- The source operator / on two Numbers; a zero divisor is taken as +0. -/
def jsDiv : JSNum → JSNum → JSNum
  | JSNum.fin a, JSNum.fin b =>
    if b = 0 then (if a = 0 then JSNum.nan else JSNum.inf (decide (a < 0)))
    else roundDouble (a / b)
  | JSNum.fin _, JSNum.inf _ => JSNum.fin 0
  | JSNum.inf s, JSNum.fin b => JSNum.inf (xor s (decide (b < 0)))
  | JSNum.inf _, JSNum.inf _ => JSNum.nan
  | JSNum.nan, _ => JSNum.nan
  | _, JSNum.nan => JSNum.nan

/-- The source operator * on two Numbers. -/
def jsMul : JSNum → JSNum → JSNum
  | JSNum.fin a, JSNum.fin b => roundDouble (a * b)
  | JSNum.fin a, JSNum.inf t =>
    if a = 0 then JSNum.nan else JSNum.inf (xor (decide (a < 0)) t)
  | JSNum.inf s, JSNum.fin b =>
    if b = 0 then JSNum.nan else JSNum.inf (xor s (decide (b < 0)))
  | JSNum.inf s, JSNum.inf t => JSNum.inf (xor s t)
  | JSNum.nan, _ => JSNum.nan
  | _, JSNum.nan => JSNum.nan

/-- The text of the integer n scaled by 10^f, the last steps of toFixed: the
decimal digits of n, padded with zeros on the left to at least f + 1 digits,
with the point before the last f digits (no point when f is 0). -/
def fixedDigits (n f : Nat) : List Char :=
  let m := Nat.toDigits 10 n
  if f ≠ 0 then
    let m := if m.length ≤ f then List.replicate (f + 1 - m.length) '0' ++ m else m
    m.take (m.length - f) ++ '.' :: m.drop (m.length - f)
  else m

/-- One step of the search for the shortest decimal numeral of the Number x,
for x of p integer digits: among the multiples s * 10^(p-k) of k-digit
precision, the two around x are the only candidates; the result is the s whose
multiple is read back as x, the one closer to x when both are, the even one
when they are equally close, and none when neither is. -/
def digitCandidate (x : ℚ) (p k : Nat) : Option Nat :=
  let u : ℚ := 10 ^ (p - k)
  let lo := ⌊x / u⌋.toNat
  let okLo := decide (roundDouble (lo * u) = JSNum.fin x)
  let okHi := decide (roundDouble ((lo + 1 : Nat) * u) = JSNum.fin x)
  if okLo && okHi then
    (if x - lo * u < (lo + 1 : Nat) * u - x then some lo
      else if (lo + 1 : Nat) * u - x < x - lo * u then some (lo + 1)
      else if lo % 2 = 0 then some lo else some (lo + 1))
  else if okLo then some lo
  else if okHi then some (lo + 1)
  else none

/-- The least number k of digits, from k on, for which a numeral of k digits
is read back as x, with the digits s of that numeral.  A double is read back
from 17 digits, so the search ends within the 17 steps it is started with. -/
def shortestDigits (x : ℚ) (p : Nat) : Nat → Nat → Nat × Nat
  | 0, k => (k, ⌊x / 10 ^ (p - k)⌋.toNat)
  | fuel + 1, k =>
    match digitCandidate x p k with
    | some s => (k, s)
    | none => shortestDigits x p fuel (k + 1)

/-- The text of a Number x ≥ 10^21 (Number::toString): the digits of its
shortest numeral, a point after the first digit when there are more, and the
decimal exponent after e+. -/
def exponentText (x : ℚ) : List Char :=
  let p := (Nat.toDigits 10 ⌊x⌋.toNat).length
  let ks := shortestDigits x p 17 1
  let all := Nat.toDigits 10 ks.2
  let e := p - 1 + (all.length - ks.1)
  let ds := (all.reverse.dropWhile (fun c => c == '0')).reverse
  ds.take 1 ++ (if ds.drop 1 = [] then [] else '.' :: ds.drop 1)
    ++ 'e' :: '+' :: Nat.toDigits 10 e

/-- The method toFixed(f) on a finite Number of exact value x: the sign is
split off; from 10^21 on the text is that of Number::toString, in exponent
notation; below, n is the integer for which n / 10^f is closest to the
magnitude (the larger one on a tie), and the text is that of n scaled by
10^f. -/
def fixedText (x : ℚ) (f : Nat) : String :=
  let s := if x < 0 then "-" else ""
  let x := if x < 0 then -x else x
  if 10 ^ 21 ≤ x then s ++ String.mk (exponentText x)
  else
    let n := ⌊x * 10 ^ f + 1 / 2⌋.toNat
    s ++ String.mk (fixedDigits n f)

/-- The method Number.prototype.toFixed(f). -/
def toFixed : JSNum → Nat → String
  | JSNum.fin q, f => fixedText q f
  | JSNum.inf false, _ => "Infinity"
  | JSNum.inf true, _ => "-Infinity"
  | JSNum.nan, _ => "NaN"

/-- The function formatNumber of the source, parseFloat(num).toFixed(4);
parseFloat of a number is that number. -/
def formatNumber (num : ℚ) : String := toFixed (toNum num) 4

/-- A value that is either a number or a string: calculateChange and the change
field of a table row hold the number 0 or the text made by toFixed. -/
inductive Change where
  | num (q : ℚ)
  | str (s : String)
  deriving DecidableEq

/-- The expression ((current - previous) / previous) * 100 of the source, each
operation rounded as the source rounds it. -/
def percentChange (current previous : ℚ) : JSNum :=
  jsMul (jsDiv (jsSub (toNum current) (toNum previous)) (toNum previous)) (JSNum.fin 100)

/-- The function calculateChange of the source.  The guard is the source
test of falsiness of previous, which for a Number that is not NaN is the test
for zero. -/
def calculateChange (current previous : ℚ) : Change :=
  if toNum previous = JSNum.fin 0 then Change.num 0
  else Change.str (toFixed (percentChange current previous) 2)

/-- The values of the data model in the theorems on percentages: those that
stand for a positive finite Number. -/
def posNumber (v : ℚ) : Bool :=
  match toNum v with
  | JSNum.fin x => decide (0 < x)
  | _ => false

/-! ## Dates and sorting -/

/-- Test for a decimal digit. -/
def isDigit (c : Char) : Bool := decide ('0' ≤ c) && decide (c ≤ '9')

/-- Value of a decimal digit. -/
def digitVal (c : Char) : Nat := c.toNat - 48

/-- Leap years of the Gregorian calendar. -/
def isLeap (y : Nat) : Bool := (y % 4 == 0 && y % 100 != 0) || y % 400 == 0

/-- Number of days of month m (1 to 12) of year y; 0 for any other m. -/
def daysInMonth (y m : Nat) : Nat :=
  if m = 2 then (if isLeap y then 29 else 28)
  else if m = 4 ∨ m = 6 ∨ m = 9 ∨ m = 11 then 30
  else if 1 ≤ m ∧ m ≤ 12 then 31 else 0

/-- Number of days of year y before month m. -/
def daysBeforeMonth (y m : Nat) : Nat :=
  ((List.range (m - 1)).map fun i => daysInMonth y (i + 1)).sum

/-- ECMAScript DayFromYear: the day number of 1 January of year y, day 0
being 1 January 1970. -/
def dayFromYear (y : Int) : Int :=
  365 * (y - 1970) + (y - 1969) / 4 - (y - 1901) / 100 + (y - 1601) / 400

/-- The time value of a calendar date: milliseconds from the epoch to
midnight UTC of that day. -/
def timeValue (y m d : Nat) : Int :=
  86400000 * (dayFromYear y + daysBeforeMonth y m + (d - 1 : Nat))

/-- The year, month and day written by a date-only ISO string YYYY-MM-DD that
names a day of the calendar; none for any other string. -/
def dateFields (s : String) : Option (Nat × Nat × Nat) :=
  match s.data with
  | [y1, y2, y3, y4, h1, m1, m2, h2, d1, d2] =>
    if [y1, y2, y3, y4, m1, m2, d1, d2].all isDigit && h1 == '-' && h2 == '-' then
      let y := digitVal y1 * 1000 + digitVal y2 * 100 + digitVal y3 * 10 + digitVal y4
      let m := digitVal m1 * 10 + digitVal m2
      let d := digitVal d1 * 10 + digitVal d2
      if 1 ≤ m ∧ m ≤ 12 ∧ 1 ≤ d ∧ d ≤ daysInMonth y m then some (y, m, d) else none
    else none
  | _ => none

/-- The number that new Date(s) stands for in a subtraction, for a date-only
ISO string YYYY-MM-DD: the time value of the day it names, and the NaN of an
Invalid Date (none) when the month or the day is out of range, as ECMAScript
prescribes for this format.  Strings of another shape (the other ISO forms and
the implementation-specific formats of the host), which a record of the data
model never holds, are not modelled and are Invalid Date here; the theorems
that depend on the value of a date assume dates of this format. -/
def dateValue (s : String) : Option Int :=
  (dateFields s).map fun ymd => timeValue ymd.1 ymd.2.1 ymd.2.2

/-- The dates of the data model: the strings YYYY-MM-DD that name a day of the
calendar. -/
def validDate (s : String) : Bool := (dateValue s).isSome

/-- The time value of a date as a rational sort key (0 for an invalid date). -/
def dateKey (s : String) : ℚ := (((dateValue s).getD 0 : Int) : ℚ)

/-- The comparator expression new Date(a) - new Date(b): the difference of
the two time values, NaN (none) when either date is invalid. -/
def dateDiff (a b : String) : Option ℚ :=
  match dateValue a, dateValue b with
  | some x, some y => some ((x - y : Int) : ℚ)
  | _, _ => none

/-- The value a sort uses for a comparator result: NaN counts as 0. -/
def sortCompare {α : Type} (cmp : α → α → Option ℚ) (x y : α) : ℚ := (cmp x y).getD 0

/-- Insertion of x before the first element it does not have to follow. -/
def sortInsert {α : Type} (cmp : α → α → Option ℚ) (x : α) : List α → List α
  | [] => [x]
  | y :: ys => if sortCompare cmp x y ≤ 0 then x :: y :: ys else y :: sortInsert cmp x ys

/-- The method Array.prototype.sort with a comparator.  ECMAScript requires
the sort to be stable, so for a consistent comparator the result is
determined: the elements in comparator order, ties in their original order.
This insertion sort computes it.  (For an inconsistent comparator the order is
implementation-defined.) -/
def arraySort {α : Type} (cmp : α → α → Option ℚ) : List α → List α
  | [] => []
  | x :: xs => sortInsert cmp x (arraySort cmp xs)

/-- Read of an array element: undefined (none) outside the array, in
particular at a negative index. -/
def elemAt {α : Type} (xs : List α) (i : Int) : Option α :=
  if i < 0 then none else xs[i.toNat]?

/-! ## Statistics engine -/

/-- The call Math.min(...values): Infinity (the top element) for no argument. -/
def mathMin (values : List ℚ) : WithTop ℚ :=
  List.foldl (fun (acc : WithTop ℚ) (v : ℚ) => min acc (v : WithTop ℚ)) ⊤ values

/-- The call Math.max(...values): -Infinity (the bottom element) for no argument. -/
def mathMax (values : List ℚ) : WithBot ℚ :=
  List.foldl (fun (acc : WithBot ℚ) (v : ℚ) => max acc (v : WithBot ℚ)) ⊥ values

/-- The numbers shown on the four cards of one currency. -/
structure StatCard where
  currency : String
  latestValue : ℚ
  change : Change
  min : WithTop ℚ
  max : WithBot ℚ
  avg : ℚ

/-- The records of one currency in ascending date order, as computed at the
head of the loop body of updateStatistics (and of updateChart). -/
def currencySeries (filteredData : List Record) (currency : String) : List Record :=
  arraySort (fun a b => dateDiff a.date b.date)
    (filteredData.filter fun d => d.currency == currency)

/-- The loop body of updateStatistics for one currency: none when the body
returns early, else the numbers of the cards. -/
def statsFor (filteredData : List Record) (currency : String) : Option StatCard :=
  let currencyData := currencySeries filteredData currency
  if currencyData.length = 0 then none
  else
    let values := currencyData.map fun d => d.value
    match elemAt currencyData (currencyData.length - 1) with
    | none => none
    | some latest =>
      let previous := elemAt currencyData (currencyData.length - 2)
      let min := mathMin values
      let max := mathMax values
      let avg := values.foldl (fun a b => a + b) (0 : ℚ) / (values.length : ℚ)
      let change := match previous with
        | some previous => calculateChange latest.value previous.value
        | none => Change.num 0
      some { currency := currency, latestValue := latest.value, change := change,
             min := min, max := max, avg := avg }

/-- The function updateStatistics of the source: the cards, currency by
currency in the order of the selection. -/
def updateStatistics (st : AppState) : List StatCard :=
  st.selectedCurrencies.filterMap (statsFor st.filteredData)

/-! ## Table view model -/

/-- The method String.prototype.includes: t occurs in s as a contiguous run. -/
def includes (s t : String) : Bool :=
  s.data.tails.any fun u => t.data.isPrefixOf u

/-- The method String.prototype.toLowerCase on ASCII text: the letters A to Z
are folded, every other character is kept.  (The case mappings of the source
for letters outside ASCII are not modelled; currency codes, dates and numerals
are ASCII.) -/
def toLowerCase (s : String) : String := String.mk (s.data.map Char.toLower)

/-- A table row: the object made by spreading a record and adding change. -/
structure Row extends Record where
  change : Change
  deriving DecidableEq

/-- The search predicate of updateTable, on the lower-cased search term. -/
def matchesSearch (searchTerm : String) (item : Record) : Bool :=
  includes (toLowerCase item.currency) searchTerm || includes item.date searchTerm
    || includes (formatNumber item.value) searchTerm

/-- The first statement of updateTable after the reads: the filtered records
that match the search term. -/
def searchFilter (searchTerm : String) (filteredData : List Record) : List Record :=
  filteredData.filter (matchesSearch searchTerm)

/-- The value of previous in the map callback of updateTable: the first
element of the records of arr with the currency of item and a smaller date
string, sorted by descending date.  (The unused prevItem of the source is left
out.) -/
def previousOf (arr : List Record) (item : Record) : Option Record :=
  let previousItems := arraySort (fun a b => dateDiff b.date a.date)
    (arr.filter fun d => d.currency == item.currency && strLt d.date item.date)
  elemAt previousItems 0

/-- The map step of updateTable: every record of arr with its change. -/
def withChange (arr : List Record) : List Row :=
  arr.map fun item =>
    { toRecord := item
      change := match previousOf arr item with
        | some previous => calculateChange item.value previous.value
        | none => Change.num 0 }

/-- The comparator of the sort step of updateTable: the switch on sortBy. -/
def tableCompare (sortBy : String) (a b : Row) : Option ℚ :=
  if sortBy = "date-desc" then dateDiff b.date a.date
  else if sortBy = "date-asc" then dateDiff a.date b.date
  else if sortBy = "value-desc" then some (b.value - a.value)
  else if sortBy = "value-asc" then some (a.value - b.value)
  else some 0

/-- The function updateTable of the source: the rows handed to the renderer
(limitedData). -/
def updateTable (el : Elements) (st : AppState) : List Row :=
  let searchTerm := toLowerCase el.tableSearch
  let sortBy := el.tableSort
  let tableData := searchFilter searchTerm st.filteredData
  let tableData := withChange tableData
  let tableData := arraySort (tableCompare sortBy) tableData
  let limitedData := tableData.take 100
  limitedData

/-- The rate records of the data model: an ISO date naming a calendar day, a
supported currency and a positive value. -/
def wellFormed (r : Record) : Prop :=
  validDate r.date = true ∧ r.currency ∈ CURRENCIES ∧ 0 < r.value

/-! ## Comparison engine -/

/-- A point of a chart series. -/
structure Point where
  x : String
  y : String
  deriving DecidableEq

/-- A chart series: its label and its points (the colours and line options
of the source object are left out). -/
structure Dataset where
  label : String
  data : List Point
  deriving DecidableEq

/-- The expression (((value - baseValue) / baseValue) * 100).toFixed(2).  For a
base value of zero the quotient is NaN or an infinity, whose text toFixed
returns as it is. -/
def percentText (value baseValue : ℚ) : String :=
  toFixed (percentChange value baseValue) 2

/-- The value of currencyData in the map callback of updateComparisonChart:
the records of the currency in the full dataset, then those within the date
bounds, sorted by ascending date. -/
def comparisonSeries (data : List Record) (startDate endDate currency : String) :
    List Record :=
  arraySort (fun a b => dateDiff a.date b.date)
    ((data.filter fun d => d.currency == currency).filter fun d =>
      if truthy startDate && strLt d.date startDate then false
      else if truthy endDate && strLt endDate d.date then false
      else true)

/-- The map callback of updateComparisonChart for one currency: null (none)
for an empty series, else the series relative to its first value. -/
def comparisonDataset (data : List Record) (startDate endDate currency : String) :
    Option Dataset :=
  let currencyData := comparisonSeries data startDate endDate currency
  if currencyData.length = 0 then none
  else
    match elemAt currencyData 0 with
    | none => none
    | some first =>
      let baseValue := first.value
      some { label := currency ++ " (variație %)"
             data := currencyData.map fun d =>
               { x := d.date, y := percentText d.value baseValue } }

/-- The function updateComparisonChart of the source: the datasets handed to
the chart, the null entries filtered out. -/
def updateComparisonChart (el : Elements) (st : AppState) : List Dataset :=
  let startDate := el.dateStart
  let endDate := el.dateEnd
  st.comparisonCurrencies.filterMap fun currency =>
    comparisonDataset st.data startDate endDate currency

/-! ## Exporter -/

/-- The function exportCSV of the source: the text put in the downloaded
file, or none when the function returns after the alert without producing
any text. -/
def exportCSV (st : AppState) : Option String :=
  if st.filteredData.length = 0 then none
  else
    let csv := "Data,Valuta,Curs (RON)\n"
    some (st.filteredData.foldl
      (fun csv item =>
        csv ++ (item.date ++ "," ++ item.currency ++ "," ++ formatNumber item.value ++ "\n"))
      csv)

/-- The line of the CSV text for one record. -/
def csvLine (r : Record) : String :=
  r.date ++ "," ++ r.currency ++ "," ++ formatNumber r.value ++ "\n"

/-- The concatenation of a list of lines, first line first. -/
def concatLines : List String → String
  | [] => ""
  | l :: ls => l ++ concatLines ls

/-! ## Source parser -/

/-- A Rate element as parseXMLData reads it: the results of
getAttribute("currency") and getAttribute("multiplier") (none for the null of
an absent attribute) and textContent. -/
structure RateEl where
  currency : Option String
  multiplier : Option String
  textContent : String

/-- A Cube element as parseXMLData reads it: the result of
getAttribute("date") and the list cube.querySelectorAll("Rate"), in document
order. -/
structure CubeEl where
  date : Option String
  rates : List RateEl

/-- A parsed rate document: the list xmlDoc.querySelectorAll("Cube"), in
document order.  (DOMParser itself, which turns the text into this tree, is
the host's and is not modelled.) -/
abbrev XmlDoc := List CubeEl

/-- The record pushed by parseXMLData.  The value is none when the quotient of
the source is not a finite number (NaN from a text that is no numeral, an
infinity from the text Infinity). -/
structure ParsedRecord where
  date : String
  currency : String
  value : Option ℚ
  deriving DecidableEq

/-- White space and line terminators of ECMAScript, skipped by parseInt and
parseFloat at the start of the text. -/
def isWhiteSpace (c : Char) : Bool :=
  [0x9, 0xA, 0xB, 0xC, 0xD, 0x20, 0xA0, 0x1680, 0x2000, 0x2001, 0x2002, 0x2003, 0x2004,
    0x2005, 0x2006, 0x2007, 0x2008, 0x2009, 0x200A, 0x2028, 0x2029, 0x202F, 0x205F, 0x3000,
    0xFEFF].contains c.toNat

/-- Value of a list of decimal digits. -/
def decValue (cs : List Char) : Nat := cs.foldl (fun acc c => acc * 10 + digitVal c) 0

/-- Test for a hexadecimal digit. -/
def isHexDigit (c : Char) : Bool :=
  isDigit c || (decide ('a' ≤ c) && decide (c ≤ 'f')) || (decide ('A' ≤ c) && decide (c ≤ 'F'))

/-- Value of a hexadecimal digit. -/
def hexDigitVal (c : Char) : Nat :=
  if isDigit c then c.toNat - 48
  else if decide ('a' ≤ c) && decide (c ≤ 'f') then c.toNat - 87 else c.toNat - 55

/-- Value of a list of hexadecimal digits. -/
def hexValue (cs : List Char) : Nat := cs.foldl (fun acc c => acc * 16 + hexDigitVal c) 0

/-- The text after an optional sign. -/
def dropSign (cs : List Char) : List Char :=
  match cs with
  | '-' :: r => r
  | '+' :: r => r
  | _ => cs

/-- The call parseInt(x) with no radix, x being a string or the null of an
absent attribute: leading white space is skipped, a sign is read, the prefix
0x selects base 16, and the longest run of digits is the value; none is NaN
(no digit at all; null reads as the text null). -/
def parseInt (x : Option String) : Option Int :=
  match x with
  | none => none
  | some s =>
    let cs := s.data.dropWhile isWhiteSpace
    let sign : Int := if cs.head? = some '-' then -1 else 1
    let cs := dropSign cs
    match cs with
    | '0' :: 'x' :: r | '0' :: 'X' :: r =>
      let ds := r.takeWhile isHexDigit
      if ds = [] then none else some (sign * hexValue ds)
    | _ =>
      let ds := cs.takeWhile isDigit
      if ds = [] then none else some (sign * decValue ds)

/-- The exponent part that follows a mantissa, 0 when there is none: the
letter e, an optional sign and at least one digit. -/
def exponentOf (r : List Char) : Int :=
  match r with
  | c :: r1 =>
    if c = 'e' ∨ c = 'E' then
      let ds := (dropSign r1).takeWhile isDigit
      if ds = [] then 0
      else if r1.head? = some '-' then -(decValue ds : Int) else (decValue ds : Int)
    else 0
  | [] => 0

/-- The call parseFloat(text): leading white space is skipped and the
longest prefix that is a decimal literal (sign, digits, point, digits,
exponent) is read; none when the result is not a finite number (NaN when
there is no such prefix, an infinity for the literal Infinity). -/
def parseFloat (s : String) : Option ℚ :=
  let cs := s.data.dropWhile isWhiteSpace
  let sign : ℚ := if cs.head? = some '-' then -1 else 1
  let cs := dropSign cs
  let a := cs.takeWhile isDigit
  let r := cs.dropWhile isDigit
  let b := if r.head? = some '.' then r.tail.takeWhile isDigit else []
  let r := if r.head? = some '.' then r.tail.dropWhile isDigit else r
  if a = [] ∧ b = [] then none
  else some (sign * ((decValue (a ++ b) : ℚ) / 10 ^ b.length) * 10 ^ exponentOf r)

/-- The body of the inner forEach of parseXMLData for one Rate element of a
Cube with the given date: the record pushed onto data, if any.  The test
CURRENCIES.includes fails for the null of an absent currency; the multiplier
is parseInt(...) || 1, so 1 replaces NaN and 0. -/
def rateRecord (date : String) (rate : RateEl) : Option ParsedRecord :=
  match rate.currency with
  | none => none
  | some currency =>
    if CURRENCIES.contains currency then
      let multiplier : Int := match parseInt rate.multiplier with
        | some k => if k = 0 then 1 else k
        | none => 1
      let value := (parseFloat rate.textContent).map fun v => v / (multiplier : ℚ)
      some { date := date, currency := currency, value := value }
    else none

/-- The function parseXMLData of the source, on the parsed document: the
outer forEach over the Cube elements returns early for a falsy date (null or
the empty string), the inner forEach pushes a record for every Rate element of
a supported currency. -/
def parseXMLData (xmlDoc : XmlDoc) : List ParsedRecord :=
  xmlDoc.foldl (fun data cube =>
    match cube.date with
    | none => data
    | some date =>
      if date = "" then data
      else cube.rates.foldl (fun data rate => data ++ (rateRecord date rate).toList) data) []

/-- A decimal text body: digits, optionally followed by a point and digits. -/
def isDecimalText (s : String) : Bool :=
  let a := s.data.takeWhile isDigit
  let r := s.data.dropWhile isDigit
  !a.isEmpty && (r.isEmpty || (r.head? == some '.' && !r.tail.isEmpty && r.tail.all isDigit))

/-- A decimal text body read as a decimal: the digits before and after the
point as one integer, over the power of ten of the number of digits after the
point. -/
def readDecimal (s : String) : ℚ :=
  let a := s.data.takeWhile isDigit
  let b := (s.data.dropWhile isDigit).tail
  (decValue (a ++ b) : ℚ) / 10 ^ b.length

/-- A multiplier attribute of a well-formed document: absent, or the decimal
numeral of a positive integer. -/
def isMultiplierAttr (m : Option String) : Bool :=
  match m with
  | none => true
  | some s => !s.data.isEmpty && s.data.all isDigit && decide (0 < decValue s.data)

/-- The multiplier a multiplier attribute stands for: 1 when absent. -/
def readMultiplier (m : Option String) : Nat :=
  match m with
  | none => 1
  | some s => decValue s.data

/-- A well-formed rate document: every rate entry has a currency code, an
absent or positive integer multiplier and a decimal text body. -/
def wellFormedDoc (xmlDoc : XmlDoc) : Bool :=
  xmlDoc.all fun cube => cube.rates.all fun rate =>
    rate.currency.isSome && isMultiplierAttr rate.multiplier && isDecimalText rate.textContent

/-- The record the specification prescribes for a rate entry of a block of
the given date: none for an unsupported currency, else the date of the block,
the currency and the text body read as a decimal over the multiplier. -/
def expectedRecord (date : String) (rate : RateEl) : Option ParsedRecord :=
  match rate.currency with
  | none => none
  | some currency =>
    if currency ∈ CURRENCIES then
      some { date := date, currency := currency,
             value := some (readDecimal rate.textContent / (readMultiplier rate.multiplier : ℚ)) }
    else none

/-- The records that one Cube element contributes: none for a missing or empty
date, else the records of its Rate elements in document order. -/
def blockRecords (cube : CubeEl) : List ParsedRecord :=
  match cube.date with
  | none => []
  | some date => if date = "" then [] else cube.rates.filterMap (rateRecord date)

/-- A block with a date: the attribute is present and not the empty string. -/
def hasDate (cube : CubeEl) : Bool :=
  match cube.date with
  | none => false
  | some date => decide (date ≠ "")

/-! ## Data acquisition -/

/-- What one run of fetchBNRData leaves behind: the application state, the
number of calls of generateSimulatedData and whether the failure alert was
shown. -/
structure FetchResult where
  state : AppState
  generatorCalls : Nat
  alerted : Bool

/-- The function fetchBNRData of the source, as a function of what its
environment does during the run.  For each target year (the source has two,
the current and the previous year) the entry of years is the list yearData
parsed from the archive, or none when the body of the loop adds nothing (the
response is not ok, or fetch or parsing threw and the inner catch logged it).
The k-th call of generateSimulatedData in the run returns gen k.
applyFiltersThrows tells whether the call of applyFilters at the end of the
try block raises an error (it updates the state first and then drives the
DOM and the charts, which can throw); the outer catch then alerts, stores a
fresh generator output and calls applyFilters again. -/
def fetchBNRData (el : Elements) (gen : Nat → List Record)
    (years : List (Option (List Record))) (applyFiltersThrows : Bool) (st : AppState) :
    FetchResult :=
  let allData := years.foldl (fun allData year =>
    match year with
    | some yearData => allData ++ yearData
    | none => allData) []
  let calls := if allData.length = 0 then 1 else 0
  let allData := if allData.length = 0 then gen 0 else allData
  let allData := arraySort (fun a b => dateDiff a.date b.date) allData
  let st := applyFilters el { st with data := allData }
  if applyFiltersThrows then
    { state := applyFilters el { st with data := gen calls }
      generatorCalls := calls + 1
      alerted := true }
  else { state := st, generatorCalls := calls, alerted := false }

/-- The concatenation of the records of the years that were retrieved. -/
def retrieved (years : List (Option (List Record))) : List Record :=
  years.flatMap fun year => year.getD []

/-- The list out is the stable sort of the list inp by the keys, for the order
R on keys: out is in the order of the keys and, for every key, the elements of
that key are those of inp in the order they have in inp.  There is one such
list at most (stable_sorted_unique), and it is a permutation of inp. -/
def IsStableSort {α κ : Type} [DecidableEq κ] (R : κ → κ → Prop) (key : α → κ)
    (out inp : List α) : Prop :=
  out.Pairwise (fun x y => R (key x) (key y))
    ∧ ∀ k : κ, out.filter (fun x => decide (key x = k)) = inp.filter (fun x => decide (key x = k))

/-! ## Synthetic data generator -/

/-- The object literal baseRates of generateSimulatedData, as a function of the
key.  Its keys are the three entries of CURRENCIES, the only keys the
generator reads; a key outside them (undefined in the source) is given 0. -/
def baseRates (currency : String) : ℚ :=
  if currency = "EUR" then 497 / 100
  else if currency = "USD" then 455 / 100
  else if currency = "GBP" then 578 / 100
  else 0

/-- The object literal volatility of generateSimulatedData, as a function of
the key (0 outside the three keys, as for baseRates). -/
def volatility (currency : String) : ℚ :=
  if currency = "EUR" then 2 / 100
  else if currency = "USD" then 3 / 100
  else if currency = "GBP" then 4 / 100
  else 0

/-- What the loop variable d reports on one iteration of the loop over the
last 365 days: d.getDay() and d.toISOString().split("T")[0].  The iterations
themselves come from the clock and the time zone of the host. -/
structure DayStep where
  getDay : Nat
  dateStr : String

/-- The mutable state of generateSimulatedData: the array data, the object
currentRates, and the number of calls of Math.random made so far. -/
structure GenState where
  data : List Record
  currentRates : String → ℚ
  draws : Nat

/-- The expression Math.max(baseRates[currency] * 0.9,
Math.min(baseRates[currency] * 1.1, x)). -/
def clampRate (currency : String) (x : ℚ) : ℚ :=
  max (baseRates currency * (9 / 10)) (min (baseRates currency * (11 / 10)) x)

/-- The body of the forEach over CURRENCIES for one currency: one call of
Math.random (rand k is the result of the k-th call of the run), the
perturbation of the current rate, the clamp, and the push of the record with
the clamped rate, which is also the rate stored for the next day. -/
def stepCurrency (rand : Nat → ℚ) (dateStr : String) (s : GenState) (currency : String) :
    GenState :=
  let change := (rand s.draws - 1 / 2) * volatility currency
  let perturbed := s.currentRates currency * (1 + change)
  let clamped := clampRate currency perturbed
  { data := s.data ++ [{ date := dateStr, currency := currency, value := clamped }]
    currentRates := fun k => if k = currency then clamped else s.currentRates k
    draws := s.draws + 1 }

/-- The body of the loop over the days: nothing on a Sunday (0) or a Saturday
(6), else the forEach over CURRENCIES. -/
def stepDay (rand : Nat → ℚ) (s : GenState) (d : DayStep) : GenState :=
  if d.getDay = 0 ∨ d.getDay = 6 then s
  else CURRENCIES.foldl (stepCurrency rand d.dateStr) s

/-- The function generateSimulatedData of the source, as a function of the
results of Math.random and of the iterations of the loop over the days. -/
def generateSimulatedData (rand : Nat → ℚ) (days : List DayStep) : List Record :=
  (days.foldl (stepDay rand) { data := [], currentRates := baseRates, draws := 0 }).data

/-- Test for a day on which the generator emits records. -/
def isWeekday (d : DayStep) : Bool := !(decide (d.getDay = 0) || decide (d.getDay = 6))

/-- The random walk of one currency in the words of the specification: each
value is the previous one perturbed by the relative change (draw - 0.5) *
volatility and then clamped, and the clamped value is the previous value of
the next step. -/
def walk (currency : String) : ℚ → List ℚ → List ℚ
  | _, [] => []
  | previous, draw :: draws =>
    clampRate currency (previous * (1 + (draw - 1 / 2) * volatility currency))
      :: walk currency
        (clampRate currency (previous * (1 + (draw - 1 / 2) * volatility currency))) draws

/-! ## Strings: facts -/

theorem ltChars_iff (a b : List Char) : ltChars a b = true ↔ a < b := by
  show ltChars a b = true ↔ List.Lex (· < ·) a b
  induction a generalizing b with
  | nil =>
    cases b with
    | nil => simp [ltChars]
    | cons b bs => simp [ltChars]; exact List.Lex.nil
  | cons a as ih =>
    cases b with
    | nil => simp [ltChars]
    | cons b bs =>
      simp only [ltChars]
      by_cases hab : a < b
      · simp [hab]; exact List.Lex.rel hab
      · by_cases hba : b < a
        · simp only [hab, hba, if_false, if_true]
          constructor
          · intro h; cases h
          · intro h
            cases h with
            | cons h => exact absurd hba (lt_irrefl _)
            | rel h => exact absurd h hab
        · simp only [hab, hba, if_false, ih]
          have he : a = b := le_antisymm (not_lt.1 hba) (not_lt.1 hab)
          subst he
          exact List.Lex.cons_iff.symm

theorem strLt_iff (a b : String) : strLt a b = true ↔ a < b := by
  rw [String.lt_iff_toList_lt]
  exact ltChars_iff a.data b.data

theorem strLt_eq_false_iff (a b : String) : strLt a b = false ↔ b ≤ a := by
  rw [← not_lt, ← strLt_iff]; simp

/-! ## Sorting: facts -/

theorem sortInsert_eq_orderedInsert {α : Type} (cmp : α → α → Option ℚ) (x : α) (l : List α) :
    sortInsert cmp x l = List.orderedInsert (fun a b => sortCompare cmp a b ≤ 0) x l := by
  induction l with
  | nil => rfl
  | cons y ys ih => simp only [sortInsert, List.orderedInsert, ih]

theorem arraySort_eq_insertionSort {α : Type} (cmp : α → α → Option ℚ) (l : List α) :
    arraySort cmp l = List.insertionSort (fun a b => sortCompare cmp a b ≤ 0) l := by
  induction l with
  | nil => rfl
  | cons x xs ih =>
    simp only [arraySort, List.insertionSort, ih, sortInsert_eq_orderedInsert]

theorem arraySort_perm {α : Type} (cmp : α → α → Option ℚ) (l : List α) :
    (arraySort cmp l).Perm l := by
  rw [arraySort_eq_insertionSort]
  exact List.perm_insertionSort _ l

theorem mem_arraySort {α : Type} (cmp : α → α → Option ℚ) (l : List α) (x : α) :
    x ∈ arraySort cmp l ↔ x ∈ l :=
  (arraySort_perm cmp l).mem_iff

theorem length_arraySort {α : Type} (cmp : α → α → Option ℚ) (l : List α) :
    (arraySort cmp l).length = l.length :=
  (arraySort_perm cmp l).length_eq

theorem sortInsert_congr {α : Type} (cmp cmp' : α → α → Option ℚ) (x : α) (l : List α)
    (h : ∀ y ∈ l, (sortCompare cmp x y ≤ 0 ↔ sortCompare cmp' x y ≤ 0)) :
    sortInsert cmp x l = sortInsert cmp' x l := by
  induction l with
  | nil => rfl
  | cons y ys ih =>
    have hy := h y (List.mem_cons_self _ _)
    have ih' := ih (fun z hz => h z (List.mem_cons_of_mem _ hz))
    by_cases hc : sortCompare cmp x y ≤ 0
    · simp [sortInsert, hc, hy.1 hc]
    · have hc' : ¬ sortCompare cmp' x y ≤ 0 := fun h' => hc (hy.2 h')
      simp [sortInsert, hc, hc', ih']

theorem arraySort_congr {α : Type} (cmp cmp' : α → α → Option ℚ) (l : List α)
    (h : ∀ x ∈ l, ∀ y ∈ l, (sortCompare cmp x y ≤ 0 ↔ sortCompare cmp' x y ≤ 0)) :
    arraySort cmp l = arraySort cmp' l := by
  induction l with
  | nil => rfl
  | cons x xs ih =>
    have ih' := ih (fun a ha b hb =>
      h a (List.mem_cons_of_mem _ ha) b (List.mem_cons_of_mem _ hb))
    simp only [arraySort, ih']
    apply sortInsert_congr
    intro y hy
    exact h x (List.mem_cons_self _ _) y
      (List.mem_cons_of_mem _ ((mem_arraySort cmp' xs y).1 hy))

/-- A sort whose comparator orders the elements of the list by a numeric key
returns them in ascending key order, and keeps every sublist that was already
in ascending key order (stability). -/
theorem arraySort_key {α : Type} (cmp : α → α → Option ℚ) (key : α → ℚ) (l : List α)
    (h : ∀ x ∈ l, ∀ y ∈ l, (sortCompare cmp x y ≤ 0 ↔ key x ≤ key y)) :
    (arraySort cmp l).Pairwise (fun x y => key x ≤ key y)
      ∧ ∀ c : List α, c.Pairwise (fun x y => key x ≤ key y) → c.Sublist l →
          c.Sublist (arraySort cmp l) := by
  have hk : arraySort cmp l = arraySort (fun x y => some (key x - key y)) l := by
    apply arraySort_congr
    intro x hx y hy
    rw [h x hx y hy]
    simp [sortCompare]
  have hr : arraySort (fun x y => some (key x - key y)) l
      = List.insertionSort (fun x y => key x ≤ key y) l := by
    rw [arraySort_eq_insertionSort]
    congr 1
    funext a b; simp [sortCompare]
  rw [hk, hr]
  haveI : IsTotal α (fun x y => key x ≤ key y) := ⟨fun a b => le_total (key a) (key b)⟩
  haveI : IsTrans α (fun x y => key x ≤ key y) := ⟨fun a b c hab hbc => le_trans hab hbc⟩
  exact ⟨List.sorted_insertionSort (fun x y => key x ≤ key y) l,
    fun c hc hs => List.sublist_insertionSort hc hs⟩

/-- A sort whose comparator is 0 on all pairs of the list leaves it as it is. -/
theorem arraySort_const {α : Type} (cmp : α → α → Option ℚ) (l : List α)
    (h : ∀ x ∈ l, ∀ y ∈ l, sortCompare cmp x y ≤ 0) : arraySort cmp l = l := by
  induction l with
  | nil => rfl
  | cons x xs ih =>
    have ih' := ih (fun a ha b hb =>
      h a (List.mem_cons_of_mem _ ha) b (List.mem_cons_of_mem _ hb))
    rw [arraySort, ih']
    cases xs with
    | nil => rfl
    | cons y ys =>
      have := h x (List.mem_cons_self _ _) y (List.mem_cons_of_mem _ (List.mem_cons_self _ _))
      simp [sortInsert, this]

/-- Stability in terms of groups: in the result of a sort by key, the elements
that satisfy a predicate constant on each key class keep the order they had. -/
theorem arraySort_filter_key {α : Type} (cmp : α → α → Option ℚ) (key : α → ℚ) (l : List α)
    (h : ∀ x ∈ l, ∀ y ∈ l, (sortCompare cmp x y ≤ 0 ↔ key x ≤ key y)) (k : ℚ) :
    (arraySort cmp l).filter (fun x => decide (key x = k)) = l.filter (fun x => decide (key x = k)) := by
  have hsub : (l.filter (fun x => decide (key x = k))).Sublist (arraySort cmp l) := by
    apply (arraySort_key cmp key l h).2
    · rw [List.pairwise_filter]
      exact List.pairwise_of_forall (fun x y hx hy => by rw [hx, hy])
    · exact List.filter_sublist _
  have h2 := hsub.filter (fun x => decide (key x = k))
  rw [List.filter_filter] at h2
  simp only [Bool.and_self] at h2
  have hlen := ((arraySort_perm cmp l).filter (fun x => decide (key x = k))).length_eq
  exact (h2.eq_of_length hlen.symm).symm

/-! ## Dates: facts -/

theorem isDigit_toNat (c : Char) (h : isDigit c = true) :
    48 ≤ c.toNat ∧ c.toNat ≤ 57 := by
  simp only [isDigit, Bool.and_eq_true, decide_eq_true_eq] at h
  exact ⟨h.1, h.2⟩

theorem char_lt_iff (a b : Char) : a < b ↔ a.toNat < b.toNat := Iff.rfl

theorem char_eq_of_toNat (a b : Char) (h : a.toNat = b.toNat) : a = b := by
  apply Char.ext
  apply UInt32.ext
  exact h

theorem ltChars_eq_ltNats (as bs : List Char) :
    ltChars as bs = ltNats (as.map Char.toNat) (bs.map Char.toNat) := by
  induction as generalizing bs with
  | nil => cases bs <;> rfl
  | cons a as ih =>
    cases bs with
    | nil => rfl
    | cons b bs =>
      simp only [ltChars, ltNats, List.map_cons, ih]
      rfl

theorem ltNats_cons (a b : Nat) (as bs : List Nat) :
    ltNats (a :: as) (b :: bs) = true ↔ a < b ∨ (a = b ∧ ltNats as bs = true) := by
  rw [ltNats]
  split_ifs with h1 h2
  · simp [h1]
  · simp; omega
  · have : a = b := by omega
    simp [this]

theorem ltNats_nil : ltNats [] [] = true ↔ False := by simp [ltNats]

theorem ltNats_date (a1 a2 a3 a4 a6 a7 a9 a10 b1 b2 b3 b4 b6 b7 b9 b10 : Nat)
    (ea1 : 48 ≤ a1 ∧ a1 ≤ 57) (ea2 : 48 ≤ a2 ∧ a2 ≤ 57) (ea3 : 48 ≤ a3 ∧ a3 ≤ 57)
    (ea4 : 48 ≤ a4 ∧ a4 ≤ 57) (ea6 : 48 ≤ a6 ∧ a6 ≤ 57) (ea7 : 48 ≤ a7 ∧ a7 ≤ 57)
    (ea9 : 48 ≤ a9 ∧ a9 ≤ 57) (ea10 : 48 ≤ a10 ∧ a10 ≤ 57)
    (eb1 : 48 ≤ b1 ∧ b1 ≤ 57) (eb2 : 48 ≤ b2 ∧ b2 ≤ 57) (eb3 : 48 ≤ b3 ∧ b3 ≤ 57)
    (eb4 : 48 ≤ b4 ∧ b4 ≤ 57) (eb6 : 48 ≤ b6 ∧ b6 ≤ 57) (eb7 : 48 ≤ b7 ∧ b7 ≤ 57)
    (eb9 : 48 ≤ b9 ∧ b9 ≤ 57) (eb10 : 48 ≤ b10 ∧ b10 ≤ 57) :
    ltNats [a1, a2, a3, a4, 45, a6, a7, 45, a9, a10] [b1, b2, b3, b4, 45, b6, b7, 45, b9, b10] = true
      ↔ ((a1 - 48) * 1000 + (a2 - 48) * 100 + (a3 - 48) * 10 + (a4 - 48)) * 10000
          + ((a6 - 48) * 10 + (a7 - 48)) * 100 + ((a9 - 48) * 10 + (a10 - 48))
        < ((b1 - 48) * 1000 + (b2 - 48) * 100 + (b3 - 48) * 10 + (b4 - 48)) * 10000
          + ((b6 - 48) * 10 + (b7 - 48)) * 100 + ((b9 - 48) * 10 + (b10 - 48)) := by
  simp only [ltNats_cons, ltNats_nil, lt_self_iff_false, true_and, false_or, and_false, or_false]
  constructor
  · intro h; omega
  · intro h
    by_contra hc
    simp only [not_or, not_and_or] at hc
    omega

theorem eqNats_date (a1 a2 a3 a4 a6 a7 a9 a10 b1 b2 b3 b4 b6 b7 b9 b10 : Nat)
    (ea1 : 48 ≤ a1 ∧ a1 ≤ 57) (ea2 : 48 ≤ a2 ∧ a2 ≤ 57) (ea3 : 48 ≤ a3 ∧ a3 ≤ 57)
    (ea4 : 48 ≤ a4 ∧ a4 ≤ 57) (ea6 : 48 ≤ a6 ∧ a6 ≤ 57) (ea7 : 48 ≤ a7 ∧ a7 ≤ 57)
    (ea9 : 48 ≤ a9 ∧ a9 ≤ 57) (ea10 : 48 ≤ a10 ∧ a10 ≤ 57)
    (eb1 : 48 ≤ b1 ∧ b1 ≤ 57) (eb2 : 48 ≤ b2 ∧ b2 ≤ 57) (eb3 : 48 ≤ b3 ∧ b3 ≤ 57)
    (eb4 : 48 ≤ b4 ∧ b4 ≤ 57) (eb6 : 48 ≤ b6 ∧ b6 ≤ 57) (eb7 : 48 ≤ b7 ∧ b7 ≤ 57)
    (eb9 : 48 ≤ b9 ∧ b9 ≤ 57) (eb10 : 48 ≤ b10 ∧ b10 ≤ 57)
    (h : ((a1 - 48) * 1000 + (a2 - 48) * 100 + (a3 - 48) * 10 + (a4 - 48)) * 10000
          + ((a6 - 48) * 10 + (a7 - 48)) * 100 + ((a9 - 48) * 10 + (a10 - 48))
        = ((b1 - 48) * 1000 + (b2 - 48) * 100 + (b3 - 48) * 10 + (b4 - 48)) * 10000
          + ((b6 - 48) * 10 + (b7 - 48)) * 100 + ((b9 - 48) * 10 + (b10 - 48))) :
    [a1, a2, a3, a4, 45, a6, a7, 45, a9, a10] = [b1, b2, b3, b4, 45, b6, b7, 45, b9, b10] := by
  have h1 : a1 = b1 := by omega
  have h2 : a2 = b2 := by omega
  have h3 : a3 = b3 := by omega
  have h4 : a4 = b4 := by omega
  have h6 : a6 = b6 := by omega
  have h7 : a7 = b7 := by omega
  have h9 : a9 = b9 := by omega
  have h10 : a10 = b10 := by omega
  rw [h1, h2, h3, h4, h6, h7, h9, h10]

/-- The shape of a valid date, on the code points of its characters. -/
theorem dateFields_some (s : String) (y m d : Nat) (h : dateFields s = some (y, m, d)) :
    ∃ n1 n2 n3 n4 n6 n7 n9 n10 : Nat,
      s.data.map Char.toNat = [n1, n2, n3, n4, 45, n6, n7, 45, n9, n10]
      ∧ ((48 ≤ n1 ∧ n1 ≤ 57) ∧ (48 ≤ n2 ∧ n2 ≤ 57) ∧ (48 ≤ n3 ∧ n3 ≤ 57) ∧ (48 ≤ n4 ∧ n4 ≤ 57))
      ∧ ((48 ≤ n6 ∧ n6 ≤ 57) ∧ (48 ≤ n7 ∧ n7 ≤ 57) ∧ (48 ≤ n9 ∧ n9 ≤ 57) ∧ (48 ≤ n10 ∧ n10 ≤ 57))
      ∧ y = (n1 - 48) * 1000 + (n2 - 48) * 100 + (n3 - 48) * 10 + (n4 - 48)
      ∧ m = (n6 - 48) * 10 + (n7 - 48) ∧ d = (n9 - 48) * 10 + (n10 - 48)
      ∧ 1 ≤ m ∧ m ≤ 12 ∧ 1 ≤ d ∧ d ≤ daysInMonth y m := by
  unfold dateFields at h
  split at h
  · rename_i a1 a2 a3 a4 a5 a6 a7 a8 a9 a10 hda
    split at h
    · rename_i hca
      simp only [List.all_cons, List.all_nil, Bool.and_true, Bool.and_eq_true,
        beq_iff_eq] at hca
      obtain ⟨⟨⟨ha1, ha2, ha3, ha4, ha6, ha7, ha9, ha10⟩, ha5⟩, ha8⟩ := hca
      subst ha5 ha8
      dsimp only at h
      split at h
      · rename_i hv
        simp only [Option.some.injEq, Prod.mk.injEq] at h
        obtain ⟨hy, hm, hd⟩ := h
        rw [hy, hm, hd] at hv
        refine ⟨a1.toNat, a2.toNat, a3.toNat, a4.toNat, a6.toNat, a7.toNat, a9.toNat,
          a10.toNat, ?_, ⟨isDigit_toNat _ ha1, isDigit_toNat _ ha2, isDigit_toNat _ ha3,
          isDigit_toNat _ ha4⟩, ⟨isDigit_toNat _ ha6, isDigit_toNat _ ha7,
          isDigit_toNat _ ha9, isDigit_toNat _ ha10⟩, hy.symm, hm.symm, hd.symm, hv⟩
        rw [hda]
        rfl
      · cases h
    · cases h
  · cases h

theorem string_eq_of_toNat (a b : String)
    (h : a.data.map Char.toNat = b.data.map Char.toNat) : a = b := by
  have hinj : Function.Injective Char.toNat := fun x y hxy => char_eq_of_toNat x y hxy
  have hd : a.data = b.data := List.map_injective_iff.2 hinj h
  cases a; cases b; simp only at hd; rw [hd]

/-- The digits of a valid date, read as one number, order dates as the
comparison of the strings does. -/
theorem dateFields_lt_iff (a b : String) (ya ma da yb mb db : Nat)
    (ha : dateFields a = some (ya, ma, da)) (hb : dateFields b = some (yb, mb, db)) :
    (strLt a b = true ↔ ya * 10000 + ma * 100 + da < yb * 10000 + mb * 100 + db)
      ∧ (a = b ↔ ya * 10000 + ma * 100 + da = yb * 10000 + mb * 100 + db) := by
  obtain ⟨a1, a2, a3, a4, a6, a7, a9, a10, hda, ⟨ea1, ea2, ea3, ea4⟩, ⟨ea6, ea7, ea9, ea10⟩,
    hya, hma, hdda, -⟩ := dateFields_some a ya ma da ha
  obtain ⟨b1, b2, b3, b4, b6, b7, b9, b10, hdb, ⟨eb1, eb2, eb3, eb4⟩, ⟨eb6, eb7, eb9, eb10⟩,
    hyb, hmb, hddb, -⟩ := dateFields_some b yb mb db hb
  have hlt := ltNats_date a1 a2 a3 a4 a6 a7 a9 a10 b1 b2 b3 b4 b6 b7 b9 b10
    ea1 ea2 ea3 ea4 ea6 ea7 ea9 ea10 eb1 eb2 eb3 eb4 eb6 eb7 eb9 eb10
  have heq := eqNats_date a1 a2 a3 a4 a6 a7 a9 a10 b1 b2 b3 b4 b6 b7 b9 b10
    ea1 ea2 ea3 ea4 ea6 ea7 ea9 ea10 eb1 eb2 eb3 eb4 eb6 eb7 eb9 eb10
  rw [← hya, ← hma, ← hdda, ← hyb, ← hmb, ← hddb] at hlt heq
  constructor
  · rw [← hlt, strLt, ltChars_eq_ltNats, hda, hdb]
  · constructor
    · intro h
      subst h
      rw [ha] at hb
      simp only [Option.some.injEq, Prod.mk.injEq] at hb
      rw [hb.1, hb.2.1, hb.2.2]
    · intro h
      apply string_eq_of_toNat
      rw [hda, hdb]
      exact heq h

theorem daysBeforeMonth_succ (y m : Nat) (h : 1 ≤ m) :
    daysBeforeMonth y (m + 1) = daysBeforeMonth y m + daysInMonth y m := by
  obtain ⟨k, rfl⟩ : ∃ k, m = k + 1 := ⟨m - 1, by omega⟩
  simp [daysBeforeMonth, List.range_succ]

theorem daysBeforeMonth_mono (y : Nat) {m m' : Nat} (h : m ≤ m') :
    daysBeforeMonth y m ≤ daysBeforeMonth y m' := by
  induction m', h using Nat.le_induction with
  | base => exact le_rfl
  | succ k hk ih =>
    rcases Nat.eq_zero_or_pos k with h0 | hpos
    · subst h0
      have : m = 0 := by omega
      subst this
      simp [daysBeforeMonth]
    · rw [daysBeforeMonth_succ y k hpos]
      omega

theorem daysBeforeMonth_end (y : Nat) :
    daysBeforeMonth y 13 = 365 + (if isLeap y then 1 else 0) := by
  cases hL : isLeap y <;> simp [daysBeforeMonth, daysInMonth, hL, List.range_succ]

theorem dayFromYear_mono (y y' : Nat) (h : y < y') :
    dayFromYear y + 365 + (if isLeap y then 1 else 0) ≤ dayFromYear y' := by
  unfold dayFromYear isLeap
  by_cases h4 : y % 4 = 0 <;> by_cases h100 : y % 100 = 0 <;> by_cases h400 : y % 400 = 0 <;>
    simp [h4, h100, h400] <;> omega

theorem timeValue_lt (y m d y' m' d' : Nat)
    (hm : 1 ≤ m ∧ m ≤ 12) (hd : 1 ≤ d ∧ d ≤ daysInMonth y m)
    (hm' : 1 ≤ m' ∧ m' ≤ 12) (hd' : 1 ≤ d' ∧ d' ≤ daysInMonth y' m')
    (h : y * 10000 + m * 100 + d < y' * 10000 + m' * 100 + d') :
    timeValue y m d < timeValue y' m' d' := by
  have hd31 : ∀ yy mm, daysInMonth yy mm ≤ 31 := by
    intro yy mm; unfold daysInMonth; split_ifs <;> omega
  have hda := hd31 y m
  have hdb := hd31 y' m'
  have hs := daysBeforeMonth_succ y m hm.1
  have he := daysBeforeMonth_mono y (show m + 1 ≤ 13 by omega)
  have hend := daysBeforeMonth_end y
  unfold timeValue
  rcases Nat.lt_trichotomy y y' with hy | hy | hy
  · have hmono := dayFromYear_mono y y' hy
    split_ifs at hmono hend <;> omega
  · subst hy
    rcases Nat.lt_trichotomy m m' with hmm | hmm | hmm
    · have := daysBeforeMonth_mono y (show m + 1 ≤ m' by omega)
      omega
    · subst hmm; omega
    · omega
  · omega

/-- On valid dates the order of the time values is the order of the strings,
and equal time values mean equal strings. -/
theorem dateValue_lt_iff (a b : String) (ta tb : Int)
    (ha : dateValue a = some ta) (hb : dateValue b = some tb) :
    (strLt a b = true ↔ ta < tb) ∧ (a = b ↔ ta = tb) := by
  unfold dateValue at ha hb
  rcases hfa : dateFields a with _ | ⟨ya, ma, da⟩
  · rw [hfa] at ha; cases ha
  rcases hfb : dateFields b with _ | ⟨yb, mb, db⟩
  · rw [hfb] at hb; cases hb
  rw [hfa] at ha
  rw [hfb] at hb
  simp only [Option.map_some', Option.some.injEq] at ha hb
  obtain ⟨-, -, -, -, -, -, -, -, -, -, -, -, -, -, hma1, hma2, hda1, hda2⟩ :=
    dateFields_some a ya ma da hfa
  obtain ⟨-, -, -, -, -, -, -, -, -, -, -, -, -, -, hmb1, hmb2, hdb1, hdb2⟩ :=
    dateFields_some b yb mb db hfb
  obtain ⟨hlt, heq⟩ := dateFields_lt_iff a b ya ma da yb mb db hfa hfb
  have hab := timeValue_lt ya ma da yb mb db ⟨hma1, hma2⟩ ⟨hda1, hda2⟩ ⟨hmb1, hmb2⟩ ⟨hdb1, hdb2⟩
  have hba := timeValue_lt yb mb db ya ma da ⟨hmb1, hmb2⟩ ⟨hdb1, hdb2⟩ ⟨hma1, hma2⟩ ⟨hda1, hda2⟩
  rw [← ha, ← hb]
  rcases Nat.lt_trichotomy (ya * 10000 + ma * 100 + da) (yb * 10000 + mb * 100 + db)
    with h | h | h
  · have h1 := hab h
    refine ⟨⟨fun _ => h1, fun _ => hlt.2 h⟩, ⟨fun e => ?_, fun e => ?_⟩⟩
    · have := heq.1 e; omega
    · omega
  · have e : a = b := heq.2 h
    subst e
    rw [hfa] at hfb
    simp only [Option.some.injEq, Prod.mk.injEq] at hfb
    obtain ⟨e1, e2, e3⟩ := hfb
    subst e1 e2 e3
    refine ⟨⟨fun hs => ?_, fun ht => absurd ht (lt_irrefl _)⟩, ⟨fun _ => rfl, fun _ => rfl⟩⟩
    have := hlt.1 hs
    omega
  · have h1 := hba h
    refine ⟨⟨fun hs => ?_, fun ht => ?_⟩, ⟨fun e => ?_, fun e => ?_⟩⟩
    · have := hlt.1 hs; omega
    · omega
    · have := heq.1 e; omega
    · omega

theorem validDate_iff (s : String) : validDate s = true ↔ ∃ t, dateValue s = some t := by
  unfold validDate
  cases dateValue s <;> simp

/-- On valid dates the sort key orders as the strings do. -/
theorem dateKey_le_iff (a b : String) (ha : validDate a = true) (hb : validDate b = true) :
    (dateKey a ≤ dateKey b ↔ a ≤ b) ∧ (dateKey a = dateKey b ↔ a = b) := by
  obtain ⟨ta, hta⟩ := (validDate_iff a).1 ha
  obtain ⟨tb, htb⟩ := (validDate_iff b).1 hb
  obtain ⟨h1, h2⟩ := dateValue_lt_iff b a tb ta htb hta
  simp only [dateKey, hta, htb, Option.getD_some, Int.cast_le, Int.cast_inj]
  constructor
  · rw [← not_lt, ← h1, ← not_lt, ← strLt_iff]
  · constructor
    · intro h; exact (h2.2 h.symm).symm
    · intro h; exact (h2.1 h.symm).symm

/-- The comparator new Date(a) - new Date(b) on valid dates is the difference
of the sort keys. -/
theorem dateDiff_valid (a b : String) (ha : validDate a = true) (hb : validDate b = true) :
    dateDiff a b = some (dateKey a - dateKey b) := by
  obtain ⟨ta, hta⟩ := (validDate_iff a).1 ha
  obtain ⟨tb, htb⟩ := (validDate_iff b).1 hb
  simp [dateDiff, dateKey, hta, htb]

/-! ## Filter engine: theorems -/

theorem applyFilters_keep_iff (sel : List String) (start stop : String) (item : Record) :
    (if !sel.contains item.currency then false
      else if truthy start && strLt item.date start then false
      else if truthy stop && strLt stop item.date then false
      else true) = decide (keepSpec sel start stop item) := by
  by_cases hc : item.currency ∈ sel
  · by_cases hs : start = ""
    · by_cases he : stop = ""
      · simp [keepSpec, truthy, hc, hs, he]
      · by_cases h2 : strLt stop item.date = true
        · have := (strLt_iff _ _).1 h2
          simp [keepSpec, truthy, hc, hs, he, h2, not_le.2 this]
        · have h3 : strLt stop item.date = false := by simpa using h2
          have := (strLt_eq_false_iff _ _).1 h3
          simp [keepSpec, truthy, hc, hs, he, h3, this]
    · by_cases h1 : strLt item.date start = true
      · have := (strLt_iff _ _).1 h1
        simp [keepSpec, truthy, hc, hs, h1, not_le.2 this]
      · have h1f : strLt item.date start = false := by simpa using h1
        have hle := (strLt_eq_false_iff _ _).1 h1f
        by_cases he : stop = ""
        · simp [keepSpec, truthy, hc, hs, he, h1f, hle]
        · by_cases h2 : strLt stop item.date = true
          · have := (strLt_iff _ _).1 h2
            simp [keepSpec, truthy, hc, hs, he, h1f, hle, h2, not_le.2 this]
          · have h3 : strLt stop item.date = false := by simpa using h2
            have := (strLt_eq_false_iff _ _).1 h3
            simp [keepSpec, truthy, hc, hs, he, h1f, hle, h3, this]
  · simp [keepSpec, hc]

/-- C1: the filtered set computed by applyFilters is the sublist of the
dataset, in the dataset's order, of exactly the records whose currency is
selected and whose date lies within the bounds that are present (an empty
bound is no bound), dates being compared lexicographically as strings. -/
theorem applyFilters_filteredData (el : Elements) (st : AppState) :
    (applyFilters el st).filteredData
        = st.data.filter (fun r => decide (keepSpec el.currencySelect el.dateStart el.dateEnd r))
      ∧ (applyFilters el st).filteredData.Sublist st.data
      ∧ (∀ r, r ∈ (applyFilters el st).filteredData ↔
          r ∈ st.data ∧ r.currency ∈ el.currencySelect
            ∧ (el.dateStart = "" ∨ el.dateStart ≤ r.date)
            ∧ (el.dateEnd = "" ∨ r.date ≤ el.dateEnd))
      ∧ (applyFilters el st).data = st.data
      ∧ (applyFilters el st).selectedCurrencies = el.currencySelect := by
  have h : (applyFilters el st).filteredData
      = st.data.filter (fun r => decide (keepSpec el.currencySelect el.dateStart el.dateEnd r)) := by
    simp only [applyFilters]
    congr 1
    funext item
    exact applyFilters_keep_iff _ _ _ _
  refine ⟨h, ?_, ?_, rfl, rfl⟩
  · rw [h]; exact List.filter_sublist _
  · intro r
    rw [h]
    simp [keepSpec]

/-! ## Sorting by date: facts -/

/-- Sorting by ascending date: on valid dates the result is a permutation in
ascending order of the date strings, records of one date in their original
order. -/
theorem sortByDate_asc {α : Type} (get : α → String) (l : List α)
    (hv : ∀ x ∈ l, validDate (get x) = true) :
    (arraySort (fun a b => dateDiff (get a) (get b)) l).Perm l
      ∧ (arraySort (fun a b => dateDiff (get a) (get b)) l).Pairwise (fun x y => get x ≤ get y)
      ∧ ∀ s : String, (arraySort (fun a b => dateDiff (get a) (get b)) l).filter
            (fun x => decide (get x = s)) = l.filter (fun x => decide (get x = s)) := by
  have hkey : ∀ x ∈ l, ∀ y ∈ l,
      (sortCompare (fun a b => dateDiff (get a) (get b)) x y ≤ 0
        ↔ dateKey (get x) ≤ dateKey (get y)) := by
    intro x hx y hy
    simp [sortCompare, dateDiff_valid _ _ (hv x hx) (hv y hy)]
  have hperm := arraySort_perm (fun a b => dateDiff (get a) (get b)) l
  obtain ⟨hsorted, -⟩ := arraySort_key _ (fun x => dateKey (get x)) l hkey
  refine ⟨hperm, ?_, ?_⟩
  · refine List.Pairwise.imp_of_mem ?_ hsorted
    intro a b ha hb hab
    exact (dateKey_le_iff _ _ (hv a (hperm.mem_iff.1 ha)) (hv b (hperm.mem_iff.1 hb))).1.1 hab
  · intro s
    by_cases hs : validDate s = true
    · have h := arraySort_filter_key _ (fun x => dateKey (get x)) l hkey (dateKey s)
      have e1 : ∀ l' : List α, (∀ x ∈ l', x ∈ l) →
          l'.filter (fun x => decide (dateKey (get x) = dateKey s))
            = l'.filter (fun x => decide (get x = s)) := by
        intro l' hl'
        apply List.filter_congr
        intro x hx
        have := (dateKey_le_iff (get x) s (hv x (hl' x hx)) hs).2
        simp only [decide_eq_decide]
        exact this
      rw [← e1 _ (fun x hx => hperm.mem_iff.1 hx), ← e1 l (fun x hx => hx)]
      exact h
    · have e1 : ∀ l' : List α, (∀ x ∈ l', x ∈ l) →
          l'.filter (fun x => decide (get x = s)) = [] := by
        intro l' hl'
        rw [List.filter_eq_nil_iff]
        intro x hx
        simp only [decide_eq_true_eq]
        intro e
        exact hs (e ▸ hv x (hl' x hx))
      rw [e1 _ (fun x hx => hperm.mem_iff.1 hx), e1 l (fun x hx => hx)]

/-- Sorting by descending date: on valid dates the result is a permutation in
descending order of the date strings, records of one date in their original
order. -/
theorem sortByDate_desc {α : Type} (get : α → String) (l : List α)
    (hv : ∀ x ∈ l, validDate (get x) = true) :
    (arraySort (fun a b => dateDiff (get b) (get a)) l).Perm l
      ∧ (arraySort (fun a b => dateDiff (get b) (get a)) l).Pairwise (fun x y => get y ≤ get x)
      ∧ ∀ s : String, (arraySort (fun a b => dateDiff (get b) (get a)) l).filter
            (fun x => decide (get x = s)) = l.filter (fun x => decide (get x = s)) := by
  have hkey : ∀ x ∈ l, ∀ y ∈ l,
      (sortCompare (fun a b => dateDiff (get b) (get a)) x y ≤ 0
        ↔ -dateKey (get x) ≤ -dateKey (get y)) := by
    intro x hx y hy
    simp [sortCompare, dateDiff_valid _ _ (hv y hy) (hv x hx)]
  have hperm := arraySort_perm (fun a b => dateDiff (get b) (get a)) l
  obtain ⟨hsorted, -⟩ := arraySort_key _ (fun x => -dateKey (get x)) l hkey
  refine ⟨hperm, ?_, ?_⟩
  · refine List.Pairwise.imp_of_mem ?_ hsorted
    intro a b ha hb hab
    exact (dateKey_le_iff _ _ (hv b (hperm.mem_iff.1 hb)) (hv a (hperm.mem_iff.1 ha))).1.1
      (neg_le_neg_iff.1 hab)
  · intro s
    by_cases hs : validDate s = true
    · have h := arraySort_filter_key _ (fun x => -dateKey (get x)) l hkey (-dateKey s)
      have e1 : ∀ l' : List α, (∀ x ∈ l', x ∈ l) →
          l'.filter (fun x => decide (-dateKey (get x) = -dateKey s))
            = l'.filter (fun x => decide (get x = s)) := by
        intro l' hl'
        apply List.filter_congr
        intro x hx
        have := (dateKey_le_iff (get x) s (hv x (hl' x hx)) hs).2
        simp only [decide_eq_decide, neg_inj]
        exact this
      rw [← e1 _ (fun x hx => hperm.mem_iff.1 hx), ← e1 l (fun x hx => hx)]
      exact h
    · have e1 : ∀ l' : List α, (∀ x ∈ l', x ∈ l) →
          l'.filter (fun x => decide (get x = s)) = [] := by
        intro l' hl'
        rw [List.filter_eq_nil_iff]
        intro x hx
        simp only [decide_eq_true_eq]
        intro e
        exact hs (e ▸ hv x (hl' x hx))
      rw [e1 _ (fun x hx => hperm.mem_iff.1 hx), e1 l (fun x hx => hx)]

/-! ## Statistics engine: facts -/

theorem elemAt_last {α : Type} (init : List α) (l : α) :
    elemAt (init ++ [l]) (((init ++ [l]).length : Int) - 1) = some l := by
  simp [elemAt]

theorem elemAt_secondToLast {α : Type} (init : List α) (p l : α) :
    elemAt (init ++ [p, l]) (((init ++ [p, l]).length : Int) - 2) = some p := by
  have h : ((((init ++ [p, l]).length : Int) - 2)).toNat = init.length := by
    simp only [List.length_append, List.length_cons, List.length_nil]
    omega
  have h2 : ¬ (((init ++ [p, l]).length : Int) - 2 < 0) := by
    simp only [List.length_append, List.length_cons, List.length_nil]
    omega
  simp only [elemAt, h2, if_false, h]
  rw [List.getElem?_append_right (le_refl _)]
  simp

theorem elemAt_single {α : Type} (l : α) :
    elemAt [l] ((([l] : List α).length : Int) - 2) = none := by
  simp [elemAt]

theorem mathMin_eq (values : List ℚ) : mathMin values = values.minimum := by
  have h : ∀ (vs : List ℚ) (a : WithTop ℚ),
      List.foldl (fun (acc : WithTop ℚ) (v : ℚ) => min acc (v : WithTop ℚ)) a vs = min a vs.minimum := by
    intro vs
    induction vs with
    | nil => intro a; simp
    | cons v vs ih =>
      intro a
      rw [List.foldl_cons, ih, List.minimum_cons, min_assoc]
  rw [mathMin, h]
  simp

theorem mathMax_eq (values : List ℚ) : mathMax values = values.maximum := by
  have h : ∀ (vs : List ℚ) (a : WithBot ℚ),
      List.foldl (fun (acc : WithBot ℚ) (v : ℚ) => max acc (v : WithBot ℚ)) a vs = max a vs.maximum := by
    intro vs
    induction vs with
    | nil => intro a; simp
    | cons v vs ih =>
      intro a
      rw [List.foldl_cons, ih, List.maximum_cons, max_assoc]
  rw [mathMax, h]
  simp

/-- The loop body of updateStatistics on a series that ends with the record l. -/
theorem statsFor_of_series (fd : List Record) (c : String) (init : List Record) (l : Record)
    (hS : currencySeries fd c = init ++ [l]) :
    statsFor fd c = some
      { currency := c
        latestValue := l.value
        change := match elemAt (init ++ [l]) (((init ++ [l]).length : Int) - 2) with
          | some previous => calculateChange l.value previous.value
          | none => Change.num 0
        min := ((init ++ [l]).map fun d => d.value).minimum
        max := ((init ++ [l]).map fun d => d.value).maximum
        avg := ((init ++ [l]).map fun d => d.value).sum / ((init ++ [l]).length : ℚ) } := by
  have hne : ¬ (init ++ [l]).length = 0 := by simp
  simp only [statsFor, hS, hne, if_false, elemAt_last, mathMin_eq, mathMax_eq,
    List.sum_eq_foldl, List.length_map]

theorem statsFor_of_nil (fd : List Record) (c : String) (hS : currencySeries fd c = []) :
    statsFor fd c = none := by
  simp [statsFor, hS]

/-! ## Numbers: facts -/

theorem roundDouble_zero : roundDouble 0 = JSNum.fin 0 := by
  simp [roundDouble]

/-- The values that stand for a positive finite Number. -/
theorem posNumber_iff (v : ℚ) :
    posNumber v = true ↔ ∃ x : ℚ, 0 < x ∧ toNum v = JSNum.fin x := by
  unfold posNumber
  cases h : toNum v with
  | fin x => simp
  | inf s => simp
  | nan => simp

/-- The percentage of a positive Number against itself is 0. -/
theorem percentChange_self (v : ℚ) (h : posNumber v = true) :
    percentChange v v = JSNum.fin 0 := by
  obtain ⟨x, hx, hv⟩ := (posNumber_iff v).1 h
  simp [percentChange, hv, jsSub, jsDiv, jsMul, roundDouble_zero, ne_of_gt hx]

/-- Against a positive Number calculateChange takes its second branch. -/
theorem calculateChange_pos (current previous : ℚ) (h : posNumber previous = true) :
    calculateChange current previous
      = Change.str (toFixed (jsMul (jsDiv (jsSub (toNum current) (toNum previous))
          (toNum previous)) (JSNum.fin 100)) 2) := by
  obtain ⟨x, hx, hv⟩ := (posNumber_iff previous).1 h
  have h0 : toNum previous ≠ JSNum.fin 0 := by
    rw [hv]
    intro e
    injection e with e
    exact (ne_of_gt hx) e
  simp only [calculateChange, h0, if_false, percentChange]

/-- The rounding of binary64 on a few inputs: a decimal fraction, ties to
even on both sides, the overflow threshold, and the subnormal range. -/
theorem roundDouble_checks :
    roundDouble (1 / 10) = JSNum.fin (3602879701896397 / 36028797018963968)
    ∧ roundDouble (2 ^ 53 + 1) = JSNum.fin (2 ^ 53)
    ∧ roundDouble (2 ^ 53 + 3) = JSNum.fin (2 ^ 53 + 4)
    ∧ roundDouble (-(2 ^ 53 + 3)) = JSNum.fin (-(2 ^ 53 + 4))
    ∧ roundDouble (2 ^ 1024 - 2 ^ 970) = JSNum.inf false
    ∧ roundDouble (2 ^ 1024 - 2 ^ 970 - 1) = JSNum.fin (2 ^ 1024 - 2 ^ 971)
    ∧ roundDouble (1 / 2 ^ 1075) = JSNum.fin 0
    ∧ roundDouble (3 / 2 ^ 1075) = JSNum.fin (1 / 2 ^ 1073) := by
  decide!

/-- The method toFixed on a few Numbers: a double, a decimal just below a tie
once stored, a negative value, exponent notation from 10^21 on, and the
values that are not finite. -/
theorem toFixed_checks :
    toFixed (toNum (4508328406979235 / 1125899906842624)) 4 = "4.0042"
    ∧ toFixed (toNum (105 / 100000)) 4 = "0.0010"
    ∧ toFixed (toNum (-1 / 10)) 2 = "-0.10"
    ∧ toFixed (toNum (2 ^ 70)) 4 = "1.1805916207174113e+21"
    ∧ toFixed (toNum (10 ^ 23)) 2 = "1e+23"
    ∧ toFixed (toNum (2 ^ 1024)) 2 = "Infinity"
    ∧ toFixed (jsDiv (JSNum.fin 0) (JSNum.fin 0)) 2 = "NaN" := by
  decide!

/-- The rounding of the quotient shows in the text: the exact percentage of
4.0042 against 4 is 0.105, the source computes 0.10499999999999954 and prints
0.10. -/
theorem calculateChange_tie : calculateChange (40042 / 10000) 4 = Change.str "0.10" := by
  decide!

theorem percentChange_example_change :
    toFixed (jsMul (jsDiv (jsSub (toNum (51 / 10)) (toNum 5)) (toNum 5)) (JSNum.fin 100)) 2
      = "2.00" := by
  decide!

/-- C2: for a filtered set of records with valid dates and positive values and
a currency c, the series S of c is the records of c in ascending date order;
when S is empty updateStatistics emits nothing for c; otherwise the card of c
has the value of the last record of S as latest value, the change 0 when S has
one record and else the text to 2 decimals of (latest - secondToLast) /
secondToLast * 100, computed by the subtraction, the division and the
multiplication of the source on the Numbers of the two records, the least and
the greatest value of S as min and max, and the sum of the values over their
number as average.  For the values 4.90, 5.00, 5.10 this is min 4.90, max
5.10, average 5.00 and change 2.00. -/
theorem updateStatistics_spec (st : AppState)
    (hdate : ∀ r ∈ st.filteredData, validDate r.date = true)
    (hpos : ∀ r ∈ st.filteredData, posNumber r.value = true) (c : String) (S : List Record)
    (hS : S = currencySeries st.filteredData c) :
    (S.Perm (st.filteredData.filter fun r => decide (r.currency = c))
      ∧ IsStableSort (fun a b : String => a ≤ b) (fun r : Record => r.date) S
          (st.filteredData.filter fun r => decide (r.currency = c)))
    ∧ (S = [] → statsFor st.filteredData c = none
        ∧ ∀ card ∈ updateStatistics st, card.currency ≠ c)
    ∧ (∀ init l, S = init ++ [l] →
        ∃ card, statsFor st.filteredData c = some card
          ∧ (c ∈ st.selectedCurrencies → card ∈ updateStatistics st)
          ∧ (∀ card2 ∈ updateStatistics st, card2.currency = c → card2 = card)
          ∧ card.currency = c
          ∧ card.latestValue = l.value
          ∧ (init = [] → card.change = Change.num 0)
          ∧ (∀ init2 p, init = init2 ++ [p] →
              card.change = Change.str (toFixed (jsMul (jsDiv
                (jsSub (toNum l.value) (toNum p.value)) (toNum p.value)) (JSNum.fin 100)) 2))
          ∧ (∃ m : ℚ, card.min = (m : WithTop ℚ) ∧ m ∈ S.map (fun d => d.value)
              ∧ ∀ v ∈ S.map (fun d => d.value), m ≤ v)
          ∧ (∃ m : ℚ, card.max = (m : WithBot ℚ) ∧ m ∈ S.map (fun d => d.value)
              ∧ ∀ v ∈ S.map (fun d => d.value), v ≤ m)
          ∧ card.avg = (S.map (fun d => d.value)).sum / (S.length : ℚ)
          ∧ (S.map (fun d => d.value) = [49 / 10, 5, 51 / 10] →
              card.min = ((49 / 10 : ℚ) : WithTop ℚ) ∧ card.max = ((51 / 10 : ℚ) : WithBot ℚ)
                ∧ card.avg = 5 ∧ card.change = Change.str "2.00")) := by
  have hcur : ∀ card c2, statsFor st.filteredData c2 = some card → card.currency = c2 := by
    intro card c2 h
    unfold statsFor at h
    dsimp only at h
    split at h
    · cases h
    · split at h
      · cases h
      · simp only [Option.some.injEq] at h
        rw [← h]
  have hmem : ∀ card, card ∈ updateStatistics st ↔
      ∃ c2 ∈ st.selectedCurrencies, statsFor st.filteredData c2 = some card := by
    intro card
    simp [updateStatistics, List.mem_filterMap]
  have hfilter : (st.filteredData.filter fun d => d.currency == c)
      = st.filteredData.filter fun r => decide (r.currency = c) := by
    apply List.filter_congr
    intro x _
    rfl
  have hsort := sortByDate_asc (fun r : Record => r.date)
    (st.filteredData.filter fun d => d.currency == c)
    (fun x hx => hdate x (List.mem_of_mem_filter hx))
  have hS2 : S = arraySort (fun a b => dateDiff a.date b.date)
      (st.filteredData.filter fun d => d.currency == c) := hS
  have hSmem : ∀ r ∈ S, r ∈ st.filteredData := by
    intro r hr
    rw [hS2] at hr
    exact List.mem_of_mem_filter (hsort.1.mem_iff.1 hr)
  refine ⟨⟨?_, ?_⟩, ?_, ?_⟩
  · rw [hS2, ← hfilter]; exact hsort.1
  · rw [hS2, ← hfilter]; exact hsort.2
  · intro hnil
    have hn := statsFor_of_nil st.filteredData c (hS ▸ hnil)
    refine ⟨hn, ?_⟩
    intro card hcard hc
    obtain ⟨c2, -, h2⟩ := (hmem card).1 hcard
    have := hcur card c2 h2
    rw [hc] at this
    subst this
    rw [hn] at h2
    cases h2
  · intro init l hSl
    have hst := statsFor_of_series st.filteredData c init l (hS ▸ hSl)
    refine ⟨_, hst, ?_, ?_, rfl, rfl, ?_, ?_, ?_, ?_, ?_, ?_⟩
    · intro hc
      exact (hmem _).2 ⟨c, hc, hst⟩
    · intro card2 hcard2 hc2
      obtain ⟨c2, -, h2⟩ := (hmem card2).1 hcard2
      have := hcur card2 c2 h2
      rw [hc2] at this
      subst this
      rw [hst] at h2
      exact (Option.some.inj h2).symm
    · intro hinit
      subst hinit
      simp only [List.nil_append]
      rw [elemAt_single]
    · intro init2 p hinit
      subst hinit
      have hp : p ∈ S := by rw [hSl]; simp
      have e : init2 ++ [p] ++ [l] = init2 ++ [p, l] := by simp
      simp only [e, elemAt_secondToLast, calculateChange_pos _ _ (hpos p (hSmem p hp))]
    · have hne : (S.map fun d => d.value) ≠ [] := by rw [hSl]; simp
      obtain ⟨m, hm⟩ := WithTop.ne_top_iff_exists.1 (List.minimum_ne_top_of_ne_nil hne)
      refine ⟨m, ?_, ?_⟩
      · rw [← hSl]; exact hm.symm
      · exact List.minimum_eq_coe_iff.1 hm.symm
    · have hne : (S.map fun d => d.value) ≠ [] := by rw [hSl]; simp
      obtain ⟨m, hm⟩ := WithBot.ne_bot_iff_exists.1 (List.maximum_ne_bot_of_ne_nil hne)
      refine ⟨m, ?_, ?_⟩
      · rw [← hSl]; exact hm.symm
      · exact List.maximum_eq_coe_iff.1 hm.symm
    · rw [hSl]
    · intro hvals
      rw [hSl] at hvals
      refine ⟨?_, ?_, ?_, ?_⟩
      · show ((init ++ [l]).map fun d => d.value).minimum = _
        rw [hvals, List.minimum_eq_coe_iff]
        norm_num
      · show ((init ++ [l]).map fun d => d.value).maximum = _
        rw [hvals, List.maximum_eq_coe_iff]
        norm_num
      · show ((init ++ [l]).map fun d => d.value).sum / ((init ++ [l]).length : ℚ) = 5
        have hlen : (init ++ [l]).length = 3 := by
          have := congrArg List.length hvals
          simpa using this
        rw [hvals, hlen]
        norm_num
      · match init, hvals, hSl with
        | [a, b], hvals, hSl =>
          simp only [List.cons_append, List.nil_append, List.map_cons, List.map_nil,
            List.cons.injEq, and_true] at hvals
          obtain ⟨-, hb, hl⟩ := hvals
          have e := elemAt_secondToLast [a] b l
          simp only [List.cons_append, List.nil_append] at e
          have hb0 : posNumber b.value = true := hpos b (hSmem b (by rw [hSl]; simp))
          simp only [List.cons_append, List.nil_append, e]
          rw [calculateChange_pos _ _ hb0, hb, hl, percentChange_example_change]
        | [], hvals, _ => simp at hvals
        | [_], hvals, _ => simp at hvals
        | _ :: _ :: _ :: _, hvals, _ =>
          have := congrArg List.length hvals
          simp at this

/-- Witness for C2: the three EUR records 4.90, 5.00, 5.10 of consecutive days. -/
theorem updateStatistics_spec_witness :
    ∃ card, statsFor [⟨"2024-01-03", "EUR", 51 / 10⟩, ⟨"2024-01-01", "EUR", 49 / 10⟩,
        ⟨"2024-01-02", "EUR", 5⟩, ⟨"2024-01-02", "USD", 4⟩] "EUR" = some card
      ∧ card.latestValue = 51 / 10 ∧ card.change = Change.str "2.00" := by
  have h := updateStatistics_spec
    ⟨[], [⟨"2024-01-03", "EUR", 51 / 10⟩, ⟨"2024-01-01", "EUR", 49 / 10⟩,
      ⟨"2024-01-02", "EUR", 5⟩, ⟨"2024-01-02", "USD", 4⟩], ["EUR"], []⟩
    (by decide) (by decide!) "EUR" _ rfl
  obtain ⟨card, h1, -, -, -, h2, -, h3, -⟩ := h.2.2
    [⟨"2024-01-01", "EUR", 49 / 10⟩, ⟨"2024-01-02", "EUR", 5⟩] ⟨"2024-01-03", "EUR", 51 / 10⟩
    (by decide!)
  refine ⟨card, h1, h2, ?_⟩
  have h4 := h3 [⟨"2024-01-01", "EUR", 49 / 10⟩] ⟨"2024-01-02", "EUR", 5⟩ rfl
  rw [h4]
  exact congrArg Change.str percentChange_example_change

/-! ## Stable sorting: uniqueness -/

/-- There is only one stable sort: two lists in the order of their keys in
which the elements of every key appear in the same order are equal. -/
theorem stable_sorted_unique {α κ : Type} [DecidableEq κ] (R : κ → κ → Prop)
    (hrefl : ∀ a, R a a) (hanti : ∀ a b, R a b → R b a → a = b) (key : α → κ)
    (l1 l2 : List α)
    (h1 : l1.Pairwise (fun x y => R (key x) (key y)))
    (h2 : l2.Pairwise (fun x y => R (key x) (key y)))
    (h : ∀ k : κ, l1.filter (fun x => decide (key x = k))
      = l2.filter (fun x => decide (key x = k))) :
    l1 = l2 := by
  induction l1 generalizing l2 with
  | nil =>
    cases l2 with
    | nil => rfl
    | cons y t2 =>
      have := h (key y)
      simp at this
  | cons x t1 ih =>
    cases l2 with
    | nil =>
      have := h (key x)
      simp at this
    | cons y t2 =>
      have hx := h (key x)
      have hy := h (key y)
      have hxmem : x ∈ y :: t2 := by
        have : x ∈ (y :: t2).filter (fun z => decide (key z = key x)) := by
          rw [← hx]; simp
        exact List.mem_of_mem_filter this
      have hymem : y ∈ x :: t1 := by
        have : y ∈ (x :: t1).filter (fun z => decide (key z = key y)) := by
          rw [hy]; simp
        exact List.mem_of_mem_filter this
      have hyx : R (key y) (key x) := by
        rcases List.mem_cons.1 hxmem with e | hin
        · rw [e]; exact hrefl _
        · exact (List.pairwise_cons.1 h2).1 x hin
      have hxy : R (key x) (key y) := by
        rcases List.mem_cons.1 hymem with e | hin
        · rw [e]; exact hrefl _
        · exact (List.pairwise_cons.1 h1).1 y hin
      have hk : key y = key x := hanti _ _ hyx hxy
      have hxy2 : x = y := by
        simp only [List.filter_cons, hk, decide_True, if_true] at hx
        exact (List.cons.inj hx).1
      subst hxy2
      congr 1
      apply ih t2 (List.pairwise_cons.1 h1).2 (List.pairwise_cons.1 h2).2
      intro k
      have hkk := h k
      simp only [List.filter_cons] at hkk
      split at hkk
      · exact (List.cons.inj hkk).2
      · exact hkk

/-- The stable sort of a list is unique. -/
theorem IsStableSort_unique {α κ : Type} [DecidableEq κ] (R : κ → κ → Prop)
    (hrefl : ∀ a, R a a) (hanti : ∀ a b, R a b → R b a → a = b) (key : α → κ)
    (o1 o2 inp : List α) (h1 : IsStableSort R key o1 inp) (h2 : IsStableSort R key o2 inp) :
    o1 = o2 :=
  stable_sorted_unique R hrefl hanti key o1 o2 h1.1 h2.1 (fun k => (h1.2 k).trans (h2.2 k).symm)

/-- The stable sort of a list is a permutation of it. -/
theorem IsStableSort_perm {α κ : Type} [DecidableEq κ] [DecidableEq α] (R : κ → κ → Prop)
    (key : α → κ) (out inp : List α) (h : IsStableSort R key out inp) : out.Perm inp := by
  rw [List.perm_iff_count]
  intro a
  have e : ∀ l : List α, l.count a = (l.filter (fun x => decide (key x = key a))).count a := by
    intro l
    rw [List.count_filter]
    simp
  rw [e out, e inp, h.2 (key a)]

/-! ## Table view model: theorems -/

theorem elemAt_zero {α : Type} (l : List α) : elemAt l 0 = l.head? := by
  cases l <;> simp [elemAt]

/-- The record previous of the map callback: none when the pool of earlier
records of the same currency is empty, else a record of the pool whose date
is the greatest of the pool. -/
theorem previousOf_spec (arr : List Record) (item : Record)
    (hv : ∀ r ∈ arr, validDate r.date = true) :
    ((∀ q ∈ arr, q.currency = item.currency → ¬ q.date < item.date) →
        previousOf arr item = none)
      ∧ ((∃ q ∈ arr, q.currency = item.currency ∧ q.date < item.date) →
        ∃ p, previousOf arr item = some p ∧ p ∈ arr ∧ p.currency = item.currency
          ∧ p.date < item.date
          ∧ ∀ q ∈ arr, q.currency = item.currency → q.date < item.date → q.date ≤ p.date) := by
  have hpool : ∀ q, q ∈ (arr.filter fun d => d.currency == item.currency && strLt d.date item.date)
      ↔ q ∈ arr ∧ q.currency = item.currency ∧ q.date < item.date := by
    intro q
    simp [List.mem_filter, strLt_iff]
  have hsort := sortByDate_desc (fun r : Record => r.date)
    (arr.filter fun d => d.currency == item.currency && strLt d.date item.date)
    (fun x hx => hv x (List.mem_of_mem_filter hx))
  obtain ⟨hperm, hpw, -⟩ := hsort
  constructor
  · intro hnone
    have hnil : (arr.filter fun d => d.currency == item.currency && strLt d.date item.date)
        = [] := by
      rw [List.eq_nil_iff_forall_not_mem]
      intro q hq
      obtain ⟨h1, h2, h3⟩ := (hpool q).1 hq
      exact hnone q h1 h2 h3
    simp [previousOf, hnil, arraySort, elemAt]
  · rintro ⟨q, hq1, hq2, hq3⟩
    have hq : q ∈ arraySort (fun a b => dateDiff b.date a.date)
        (arr.filter fun d => d.currency == item.currency && strLt d.date item.date) :=
      hperm.mem_iff.2 ((hpool q).2 ⟨hq1, hq2, hq3⟩)
    rcases hs : arraySort (fun a b => dateDiff b.date a.date)
        (arr.filter fun d => d.currency == item.currency && strLt d.date item.date)
      with _ | ⟨p, rest⟩
    · rw [hs] at hq; cases hq
    · rw [hs] at hpw hperm
      have hp := (hpool p).1 (hperm.mem_iff.1 (List.mem_cons_self _ _))
      refine ⟨p, ?_, hp.1, hp.2.1, hp.2.2, ?_⟩
      · simp [previousOf, hs, elemAt]
      · intro q2 h1 h2 h3
        have hq2 : q2 ∈ p :: rest := hperm.mem_iff.2 ((hpool q2).2 ⟨h1, h2, h3⟩)
        rcases List.mem_cons.1 hq2 with e | hin
        · rw [e]
        · exact (List.pairwise_cons.1 hpw).1 q2 hin

theorem mem_searchFilter (term : String) (fd : List Record) (r : Record) :
    r ∈ searchFilter term fd ↔ r ∈ fd ∧ matchesSearch term r = true := by
  simp [searchFilter, List.mem_filter]

/-- C3: for a filtered set of records with valid dates, any search term and
any record r that matches it, the row of r carries the change computed against
the nearest earlier record of the same currency among the search-matching
records: 0 when no search-matching record of the currency of r has a date
before that of r, and else calculateChange(r.value, p.value) for a
search-matching record p of that currency whose date is the greatest before
that of r.  A record that does not match the search term is never p. -/
theorem updateTable_change (el : Elements) (st : AppState)
    (hdate : ∀ r ∈ st.filteredData, validDate r.date = true) (arr : List Record)
    (harr : arr = searchFilter (toLowerCase el.tableSearch) st.filteredData) :
    (∀ r, r ∈ arr ↔ r ∈ st.filteredData ∧ matchesSearch (toLowerCase el.tableSearch) r = true)
    ∧ (withChange arr).map (fun row => row.toRecord) = arr
    ∧ updateTable el st = (arraySort (tableCompare el.tableSort) (withChange arr)).take 100
    ∧ (∀ row ∈ updateTable el st, row ∈ withChange arr)
    ∧ ∀ row ∈ withChange arr,
        row.toRecord ∈ arr
        ∧ ((∀ q ∈ arr, q.currency = row.currency → ¬ q.date < row.date) →
            row.change = Change.num 0)
        ∧ ((∃ q ∈ arr, q.currency = row.currency ∧ q.date < row.date) →
            ∃ p ∈ arr, matchesSearch (toLowerCase el.tableSearch) p = true
              ∧ p.currency = row.currency ∧ p.date < row.date
              ∧ (∀ q ∈ arr, q.currency = row.currency → q.date < row.date → q.date ≤ p.date)
              ∧ row.change = calculateChange row.value p.value) := by
  have hmem : ∀ r, r ∈ arr ↔
      r ∈ st.filteredData ∧ matchesSearch (toLowerCase el.tableSearch) r = true := by
    intro r; rw [harr]; exact mem_searchFilter _ _ _
  have hv : ∀ r ∈ arr, validDate r.date = true := fun r hr => hdate r ((hmem r).1 hr).1
  refine ⟨hmem, ?_, ?_, ?_, ?_⟩
  · simp [withChange, List.map_map, Function.comp_def]
  · rw [harr]; rfl
  · intro row hrow
    have h1 : row ∈ arraySort (tableCompare el.tableSort) (withChange arr) := by
      rw [harr]
      exact List.mem_of_mem_take hrow
    exact (mem_arraySort _ _ _).1 h1
  · intro row hrow
    simp only [withChange, List.mem_map] at hrow
    obtain ⟨item, hitem, rfl⟩ := hrow
    obtain ⟨hnone, hsome⟩ := previousOf_spec arr item hv
    refine ⟨hitem, ?_, ?_⟩
    · intro h
      simp only [hnone h]
    · intro h
      obtain ⟨p, hp, hp1, hp2, hp3, hp4⟩ := hsome h
      refine ⟨p, hp1, ((hmem p).1 hp1).2, hp2, hp3, hp4, ?_⟩
      simp only [hp]

/-- Witness for C3: three EUR records and one USD record, search term EUR. -/
theorem updateTable_change_witness :
    (withChange (searchFilter (toLowerCase "EUR")
        [⟨"2024-01-01", "EUR", 49 / 10⟩, ⟨"2024-01-02", "USD", 4⟩,
          ⟨"2024-01-02", "EUR", 5⟩, ⟨"2024-01-03", "EUR", 51 / 10⟩])).map
          (fun row => row.toRecord)
      = searchFilter (toLowerCase "EUR")
        [⟨"2024-01-01", "EUR", 49 / 10⟩, ⟨"2024-01-02", "USD", 4⟩,
          ⟨"2024-01-02", "EUR", 5⟩, ⟨"2024-01-03", "EUR", 51 / 10⟩] :=
  (updateTable_change ⟨[], "", "", "EUR", "date-desc"⟩
    ⟨[], [⟨"2024-01-01", "EUR", 49 / 10⟩, ⟨"2024-01-02", "USD", 4⟩,
          ⟨"2024-01-02", "EUR", 5⟩, ⟨"2024-01-03", "EUR", 51 / 10⟩], [], []⟩
    (by decide) _ rfl).2.1

theorem tableCompare_value_desc (a b : Row) :
    tableCompare "value-desc" a b = some (b.value - a.value) := by
  simp [tableCompare]

theorem tableCompare_value_asc (a b : Row) :
    tableCompare "value-asc" a b = some (a.value - b.value) := by
  simp [tableCompare]

theorem tableCompare_other (sortBy : String) (a b : Row) (h1 : sortBy ≠ "date-desc")
    (h2 : sortBy ≠ "date-asc") (h3 : sortBy ≠ "value-desc") (h4 : sortBy ≠ "value-asc") :
    tableCompare sortBy a b = some 0 := by
  simp [tableCompare, h1, h2, h3, h4]

/-- C7: for a filtered set of records with valid dates, the rows displayed by
updateTable are the first min(100, n) rows of the stable sort (IsStableSort)
of the n search-matching rows by the key of the sort control: date descending,
date ascending, value descending or value ascending, the rows of one date (or
value) keeping their input order, and any other key leaving the rows in input
order.  With 250 matching rows exactly 100 rows are displayed, the first 100
in sorted order. -/
theorem updateTable_sorted (el : Elements) (st : AppState)
    (hdate : ∀ r ∈ st.filteredData, validDate r.date = true) (rows sorted : List Row)
    (hrows : rows = withChange (searchFilter (toLowerCase el.tableSearch) st.filteredData))
    (hsorted : sorted = arraySort (tableCompare el.tableSort) rows) :
    updateTable el st = sorted.take 100
    ∧ (updateTable el st).length = min 100 rows.length
    ∧ sorted.Perm rows
    ∧ (el.tableSort = "date-desc" →
        IsStableSort (fun a b : String => b ≤ a) (fun x : Row => x.date) sorted rows)
    ∧ (el.tableSort = "date-asc" →
        IsStableSort (fun a b : String => a ≤ b) (fun x : Row => x.date) sorted rows)
    ∧ (el.tableSort = "value-desc" →
        IsStableSort (fun a b : ℚ => b ≤ a) (fun x : Row => x.value) sorted rows)
    ∧ (el.tableSort = "value-asc" →
        IsStableSort (fun a b : ℚ => a ≤ b) (fun x : Row => x.value) sorted rows)
    ∧ (el.tableSort ≠ "date-desc" → el.tableSort ≠ "date-asc" → el.tableSort ≠ "value-desc" →
        el.tableSort ≠ "value-asc" → sorted = rows)
    ∧ (rows.length = 250 → (updateTable el st).length = 100) := by
  have hperm : sorted.Perm rows := by rw [hsorted]; exact arraySort_perm _ _
  have hupd : updateTable el st = sorted.take 100 := by rw [hsorted, hrows]; rfl
  have hlen : (updateTable el st).length = min 100 rows.length := by
    rw [hupd, List.length_take, hperm.length_eq]
  have hv : ∀ x ∈ rows, validDate x.date = true := by
    intro x hx
    rw [hrows] at hx
    simp only [withChange, List.mem_map] at hx
    obtain ⟨item, hitem, rfl⟩ := hx
    exact hdate item ((mem_searchFilter _ _ _).1 hitem).1
  refine ⟨hupd, hlen, hperm, ?_, ?_, ?_, ?_, ?_, ?_⟩
  · intro hk
    have h := sortByDate_desc (fun x : Row => x.date) rows hv
    have e : arraySort (tableCompare el.tableSort) rows
        = arraySort (fun a b => dateDiff b.date a.date) rows := by
      rw [hk]; congr 1
    rw [hsorted, e]
    exact ⟨h.2.1, h.2.2⟩
  · intro hk
    have h := sortByDate_asc (fun x : Row => x.date) rows hv
    have e : arraySort (tableCompare el.tableSort) rows
        = arraySort (fun a b => dateDiff a.date b.date) rows := by
      rw [hk]; congr 1
    rw [hsorted, e]
    exact ⟨h.2.1, h.2.2⟩
  · intro hk
    have hkey : ∀ x ∈ rows, ∀ y ∈ rows,
        (sortCompare (tableCompare el.tableSort) x y ≤ 0 ↔ -x.value ≤ -y.value) := by
      intro x _ y _
      rw [hk]
      simp [sortCompare, tableCompare_value_desc]
    obtain ⟨h1, -⟩ := arraySort_key _ (fun x : Row => -x.value) rows hkey
    rw [hsorted]
    refine ⟨h1.imp (fun h => neg_le_neg_iff.1 h), ?_⟩
    intro v
    have h2 := arraySort_filter_key _ (fun x : Row => -x.value) rows hkey (-v)
    simp only [neg_inj] at h2
    exact h2
  · intro hk
    have hkey : ∀ x ∈ rows, ∀ y ∈ rows,
        (sortCompare (tableCompare el.tableSort) x y ≤ 0 ↔ x.value ≤ y.value) := by
      intro x _ y _
      rw [hk]
      simp [sortCompare, tableCompare_value_asc]
    obtain ⟨h1, -⟩ := arraySort_key _ (fun x : Row => x.value) rows hkey
    rw [hsorted]
    exact ⟨h1, fun v => arraySort_filter_key _ (fun x : Row => x.value) rows hkey v⟩
  · intro h1 h2 h3 h4
    rw [hsorted]
    apply arraySort_const
    intro x _ y _
    simp [sortCompare, tableCompare_other _ x y h1 h2 h3 h4]
  · intro h250
    rw [hlen, h250]
    rfl

/-- Witness for C7: four records sorted by descending date. -/
theorem updateTable_sorted_witness :
    updateTable ⟨[], "", "", "", "date-desc"⟩
        ⟨[], [⟨"2024-01-01", "EUR", 49 / 10⟩, ⟨"2024-01-02", "USD", 4⟩,
          ⟨"2024-01-02", "EUR", 5⟩, ⟨"2024-01-03", "EUR", 51 / 10⟩], [], []⟩
      = (arraySort (tableCompare "date-desc")
          (withChange (searchFilter (toLowerCase "")
            [⟨"2024-01-01", "EUR", 49 / 10⟩, ⟨"2024-01-02", "USD", 4⟩,
              ⟨"2024-01-02", "EUR", 5⟩, ⟨"2024-01-03", "EUR", 51 / 10⟩]))).take 100 :=
  (updateTable_sorted ⟨[], "", "", "", "date-desc"⟩
    ⟨[], [⟨"2024-01-01", "EUR", 49 / 10⟩, ⟨"2024-01-02", "USD", 4⟩,
          ⟨"2024-01-02", "EUR", 5⟩, ⟨"2024-01-03", "EUR", 51 / 10⟩], [], []⟩
    (by decide) _ _ rfl rfl).1

/-! ## Search coupling of the table -/

theorem includes_subset (s t : String) (h : includes s t = true) :
    ∀ c ∈ t.data, c ∈ s.data := by
  simp only [includes, List.any_eq_true] at h
  obtain ⟨u, hu, hp⟩ := h
  have h1 : t.data <+: u := List.isPrefixOf_iff_prefix.1 hp
  have h2 : u <:+ s.data := (List.mem_tails _ _).1 hu
  intro c hc
  exact h2.subset (h1.subset hc)

theorem includes_empty (s : String) : includes s "" = true := by
  simp only [includes, List.any_eq_true]
  exact ⟨s.data, (List.mem_tails _ _).2 (List.suffix_refl _), by simp⟩

/-- The model of includes is the test for a contiguous sublist. -/
theorem includes_iff (s t : String) : includes s t = true ↔ t.data <:+: s.data := by
  simp only [includes, List.any_eq_true, List.mem_tails, List.isPrefixOf_iff_prefix]
  constructor
  · rintro ⟨u, hu, hp⟩
    exact List.infix_iff_prefix_suffix.2 ⟨u, hp, hu⟩
  · intro h
    obtain ⟨u, hp, hu⟩ := List.infix_iff_prefix_suffix.1 h
    exact ⟨u, hu, hp⟩

theorem validDate_no_letter (s : String) (h : validDate s = true) : 'e' ∉ s.data := by
  obtain ⟨t, ht⟩ := (validDate_iff s).1 h
  unfold dateValue at ht
  rcases hf : dateFields s with _ | ⟨y, m, d⟩
  · rw [hf] at ht; cases ht
  obtain ⟨n1, n2, n3, n4, n6, n7, n9, n10, hd, ⟨e1, e2, e3, e4⟩, ⟨e6, e7, e9, e10⟩, -⟩ :=
    dateFields_some s y m d hf
  intro he
  have : ('e').toNat ∈ s.data.map Char.toNat := List.mem_map_of_mem _ he
  rw [hd] at this
  have h101 : ('e').toNat = 101 := rfl
  rw [h101] at this
  simp only [List.mem_cons, List.mem_singleton, List.not_mem_nil, or_false] at this
  omega

theorem digitChar_isDigit : ∀ k, k < 10 → isDigit (Nat.digitChar k) = true := by decide

theorem toDigitsCore_isDigit (fuel n : Nat) (ds : List Char)
    (hds : ∀ c ∈ ds, isDigit c = true) :
    ∀ c ∈ Nat.toDigitsCore 10 fuel n ds, isDigit c = true := by
  induction fuel generalizing n ds with
  | zero => simpa [Nat.toDigitsCore] using hds
  | succ fuel ih =>
    have hd : isDigit (Nat.digitChar (n % 10)) = true :=
      digitChar_isDigit _ (Nat.mod_lt _ (by norm_num))
    have hds2 : ∀ c ∈ Nat.digitChar (n % 10) :: ds, isDigit c = true := by
      intro c hc
      rcases List.mem_cons.1 hc with e | hin
      · rw [e]; exact hd
      · exact hds c hin
    simp only [Nat.toDigitsCore]
    split
    · exact hds2
    · exact ih _ _ hds2

theorem toDigits_isDigit (n : Nat) : ∀ c ∈ Nat.toDigits 10 n, isDigit c = true :=
  toDigitsCore_isDigit _ _ [] (fun _ h => absurd h (List.not_mem_nil _))

theorem fixedDigits_chars (n f : Nat) :
    ∀ c ∈ fixedDigits n f, isDigit c = true ∨ c = '.' := by
  have hpad : ∀ (m : List Char) (k : Nat), (∀ c ∈ m, isDigit c = true) →
      ∀ c ∈ List.replicate k '0' ++ m, isDigit c = true := by
    intro m k hm c hc
    rcases List.mem_append.1 hc with h | h
    · rw [(List.mem_replicate.1 h).2]; rfl
    · exact hm c h
  have hsplit : ∀ (m : List Char) (k : Nat), (∀ c ∈ m, isDigit c = true) →
      ∀ c ∈ m.take k ++ '.' :: m.drop k, isDigit c = true ∨ c = '.' := by
    intro m k hm c hc
    rcases List.mem_append.1 hc with h | h
    · exact Or.inl (hm c (List.mem_of_mem_take h))
    · rcases List.mem_cons.1 h with e | h
      · exact Or.inr e
      · exact Or.inl (hm c (List.mem_of_mem_drop h))
  have hdig := toDigits_isDigit n
  intro c hc
  unfold fixedDigits at hc
  dsimp only at hc
  split_ifs at hc with h1 h2
  · exact hsplit _ _ (hpad _ _ hdig) c hc
  · exact hsplit _ _ hdig c hc
  · exact Or.inl (hdig c hc)

theorem exponentText_chars (x : ℚ) :
    ∀ c ∈ exponentText x, isDigit c = true ∨ c = '.' ∨ c = 'e' ∨ c = '+' := by
  have hds : ∀ (l : List Char), (∀ c ∈ l, isDigit c = true) →
      ∀ c ∈ (l.reverse.dropWhile (fun c => c == '0')).reverse, isDigit c = true := by
    intro l hl c hc
    exact hl c (List.mem_reverse.1
      ((List.dropWhile_sublist _).subset (List.mem_reverse.1 hc)))
  intro c hc
  unfold exponentText at hc
  dsimp only at hc
  rcases List.mem_append.1 hc with h | h
  · rcases List.mem_append.1 h with h | h
    · exact Or.inl (hds _ (toDigits_isDigit _) c (List.mem_of_mem_take h))
    · split at h
      · exact absurd h (List.not_mem_nil _)
      · rcases List.mem_cons.1 h with e | h
        · exact Or.inr (Or.inl e)
        · exact Or.inl (hds _ (toDigits_isDigit _) c (List.mem_of_mem_drop h))
  · rcases List.mem_cons.1 h with e | h
    · exact Or.inr (Or.inr (Or.inl e))
    · rcases List.mem_cons.1 h with e | h
      · exact Or.inr (Or.inr (Or.inr e))
      · exact Or.inl (toDigits_isDigit _ c h)

/-- The text made by toFixed on a finite Number consists of digits, the
point, the minus sign and, in exponent notation, the letter e and the plus
sign. -/
theorem fixedText_chars (x : ℚ) (f : Nat) :
    ∀ c ∈ (fixedText x f).data,
      isDigit c = true ∨ c = '.' ∨ c = '-' ∨ c = 'e' ∨ c = '+' := by
  have hsign : ∀ c ∈ (if x < 0 then "-" else "").data, c = '-' := by
    intro c hc
    split at hc
    · simpa using hc
    · simp at hc
  intro c hc
  by_cases h21 : (10 : ℚ) ^ 21 ≤ (if x < 0 then -x else x)
  · have e : fixedText x f = (if x < 0 then "-" else "")
        ++ String.mk (exponentText (if x < 0 then -x else x)) := by
      unfold fixedText
      dsimp only
      rw [if_pos h21]
    rw [e, String.data_append, List.mem_append] at hc
    rcases hc with hc | hc
    · exact Or.inr (Or.inr (Or.inl (hsign c hc)))
    · rcases exponentText_chars _ c hc with h | h | h | h
      · exact Or.inl h
      · exact Or.inr (Or.inl h)
      · exact Or.inr (Or.inr (Or.inr (Or.inl h)))
      · exact Or.inr (Or.inr (Or.inr (Or.inr h)))
  · have e : fixedText x f = (if x < 0 then "-" else "")
        ++ String.mk (fixedDigits ⌊(if x < 0 then -x else x) * 10 ^ f + 1 / 2⌋.toNat f) := by
      unfold fixedText
      dsimp only
      rw [if_neg h21]
    rw [e, String.data_append, List.mem_append] at hc
    rcases hc with hc | hc
    · exact Or.inr (Or.inr (Or.inl (hsign c hc)))
    · rcases fixedDigits_chars _ _ c hc with h | h
      · exact Or.inl h
      · exact Or.inr (Or.inl h)

/-- No text made by toFixed holds the letter u. -/
theorem toFixed_no_letter (x : JSNum) (f : Nat) : 'u' ∉ (toFixed x f).data := by
  cases x with
  | fin q =>
    intro h
    rcases fixedText_chars q f 'u' h with h | h | h | h | h <;> revert h <;> decide
  | inf s =>
    cases s
    · show 'u' ∉ ("Infinity" : String).data
      decide
    · show 'u' ∉ ("-Infinity" : String).data
      decide
  | nan =>
    show 'u' ∉ ("NaN" : String).data
    decide

theorem formatNumber_no_letter (v : ℚ) : 'u' ∉ (formatNumber v).data :=
  toFixed_no_letter _ 4

/-- On well-formed records the search term EUR selects the EUR records. -/
theorem matchesSearch_eur (r : Record) (h : wellFormed r) :
    matchesSearch (toLowerCase "EUR") r = true ↔ r.currency = "EUR" := by
  obtain ⟨hd, hc, -⟩ := h
  have hlow : toLowerCase "EUR" = "eur" := by decide
  have he : 'e' ∈ ("eur" : String).data := by decide
  have h2 : includes r.date "eur" = false := by
    rw [Bool.eq_false_iff]
    intro h
    exact validDate_no_letter _ hd (includes_subset _ _ h 'e' he)
  have hu : 'u' ∈ ("eur" : String).data := by decide
  have h3 : includes (formatNumber r.value) "eur" = false := by
    rw [Bool.eq_false_iff]
    intro h
    exact formatNumber_no_letter _ (includes_subset _ _ h 'u' hu)
  simp only [matchesSearch, hlow, h2, h3, Bool.or_false]
  simp only [CURRENCIES, List.mem_cons, List.mem_singleton, List.not_mem_nil, or_false] at hc
  rcases hc with e | e | e <;> rw [e] <;> decide

/-- The pool of earlier records of an EUR record is the same under the search
term EUR and under the empty search term. -/
theorem previousOf_search_eur (fd : List Record) (hwf : ∀ x ∈ fd, wellFormed x) (item : Record)
    (hitem : item.currency = "EUR") :
    previousOf (searchFilter (toLowerCase "EUR") fd) item
      = previousOf (searchFilter (toLowerCase "") fd) item := by
  have hall : searchFilter (toLowerCase "") fd = fd := by
    simp only [searchFilter, List.filter_eq_self]
    intro a _
    have hlow : toLowerCase "" = "" := by decide
    simp [matchesSearch, hlow, includes_empty]
  have hpool : (searchFilter (toLowerCase "EUR") fd).filter
        (fun d => d.currency == item.currency && strLt d.date item.date)
      = fd.filter (fun d => d.currency == item.currency && strLt d.date item.date) := by
    simp only [searchFilter, List.filter_filter]
    apply List.filter_congr
    intro d hd
    by_cases hc : d.currency = "EUR"
    · have := (matchesSearch_eur d (hwf d hd)).2 hc
      simp [this]
    · simp [hitem, hc]
  simp only [previousOf, hpool, hall]

theorem mem_updateTable (el : Elements) (st : AppState) (row : Row)
    (h : row ∈ updateTable el st) :
    row.toRecord ∈ searchFilter (toLowerCase el.tableSearch) st.filteredData
      ∧ row.change = match previousOf (searchFilter (toLowerCase el.tableSearch) st.filteredData)
            row.toRecord with
          | some previous => calculateChange row.value previous.value
          | none => Change.num 0 := by
  have h1 : row ∈ arraySort (tableCompare el.tableSort)
      (withChange (searchFilter (toLowerCase el.tableSearch) st.filteredData)) :=
    List.mem_of_mem_take h
  have h2 := (mem_arraySort _ _ _).1 h1
  simp only [withChange, List.mem_map] at h2
  obtain ⟨item, hitem, rfl⟩ := h2
  exact ⟨hitem, rfl⟩

/-- Refutation of C10 as stated: on well-formed records, a row displayed both
under the search term EUR and under the empty search term carries the same
change in both tables. -/
theorem search_eur_change_differs_refuted :
    ¬ ∃ (el : Elements) (st : AppState) (r : Record) (c1 c2 : Change),
        (∀ x ∈ st.filteredData, wellFormed x)
        ∧ (⟨r, c1⟩ : Row) ∈ updateTable { el with tableSearch := "EUR" } st
        ∧ (⟨r, c2⟩ : Row) ∈ updateTable { el with tableSearch := "" } st
        ∧ c1 ≠ c2 := by
  rintro ⟨el, st, r, c1, c2, hwf, h1, h2, hne⟩
  obtain ⟨hr1, hc1⟩ := mem_updateTable _ _ _ h1
  obtain ⟨-, hc2⟩ := mem_updateTable _ _ _ h2
  simp only at hr1 hc1 hc2
  have hrfd := ((mem_searchFilter _ _ _).1 hr1)
  have hcur : r.currency = "EUR" := (matchesSearch_eur r (hwf r hrfd.1)).1 hrfd.2
  rw [previousOf_search_eur _ hwf r hcur] at hc1
  exact hne (hc1.trans hc2.symm)

/-- C10 as amended: with a date as search term the change of a displayed row
can differ from the one computed without search term.  The EUR record of
2024-01-03 is displayed with change 0 under the search term 2024-01-03 and
with change 2.00 under the empty search term. -/
theorem search_date_change_differs :
    ∃ (el : Elements) (st : AppState) (r : Record) (c1 c2 : Change),
        (∀ x ∈ st.filteredData, wellFormed x)
        ∧ (⟨r, c1⟩ : Row) ∈ updateTable { el with tableSearch := "2024-01-03" } st
        ∧ (⟨r, c2⟩ : Row) ∈ updateTable { el with tableSearch := "" } st
        ∧ c1 ≠ c2 := by
  refine ⟨⟨[], "", "", "", "date-desc"⟩,
    ⟨[], [⟨"2024-01-02", "EUR", 5⟩, ⟨"2024-01-03", "EUR", 51 / 10⟩], [], []⟩,
    ⟨"2024-01-03", "EUR", 51 / 10⟩, Change.num 0, Change.str "2.00", ?_, ?_, ?_, ?_⟩
  · intro x hx
    simp only [List.mem_cons, List.mem_singleton, List.not_mem_nil, or_false] at hx
    rcases hx with e | e <;> rw [e] <;> refine ⟨by decide, by decide, by norm_num⟩
  · decide!
  · decide!
  · decide

/-! ## Comparison engine: theorems -/

theorem inRange_iff (start stop : String) (d : Record) :
    (if truthy start && strLt d.date start then false
      else if truthy stop && strLt stop d.date then false
      else true) = decide ((start = "" ∨ start ≤ d.date) ∧ (stop = "" ∨ d.date ≤ stop)) := by
  have h := applyFilters_keep_iff [d.currency] start stop d
  simp only [List.contains_cons, beq_self_eq_true, Bool.true_or, Bool.not_true,
    Bool.false_eq_true, if_false] at h
  rw [h]
  simp [keepSpec]

theorem string_append_right_cancel (a b s : String) (h : a ++ s = b ++ s) : a = b := by
  have h2 : (a ++ s).data = (b ++ s).data := by rw [h]
  simp only [String.data_append] at h2
  have h3 := List.append_cancel_right h2
  cases a; cases b; simp only at h3; rw [h3]

theorem toFixed_zero_two : toFixed (JSNum.fin 0) 2 = "0.00" := by decide!

/-- The percentage of a positive Number against itself prints as 0.00. -/
theorem percentText_self (v : ℚ) (h : posNumber v = true) :
    toFixed (jsMul (jsDiv (jsSub (toNum v) (toNum v)) (toNum v)) (JSNum.fin 100)) 2
      = "0.00" := by
  have e := percentChange_self v h
  unfold percentChange at e
  rw [e, toFixed_zero_two]

theorem percentChange_example_ten :
    toFixed (jsMul (jsDiv (jsSub (toNum (22 / 10)) (toNum 2)) (toNum 2)) (JSNum.fin 100)) 2
      = "10.00" := by
  decide!

/-- C4: for a full dataset of records with valid dates and positive values,
any date range and any comparison currency c, the series of c is computed
from the records of c of the full dataset within the date range, whatever the
stored currency selection and filtered set are, in ascending date order; when
there is no such record c has no dataset in the output; otherwise every point
is the text to 2 decimals of (value - baseline) / baseline * 100, computed by
the subtraction, the division and the multiplication of the source on the
Numbers of the records, the baseline being the value of the earliest record,
so that the first point is 0.00.  For the windowed values 2.00, 2.20 the
series is 0.00, 10.00. -/
theorem updateComparisonChart_spec (el : Elements) (st : AppState)
    (hdate : ∀ r ∈ st.data, validDate r.date = true)
    (hpos : ∀ r ∈ st.data, posNumber r.value = true)
    (c : String) (W : List Record)
    (hW : W = comparisonSeries st.data el.dateStart el.dateEnd c) :
    (∀ st2 : AppState, st2.data = st.data → st2.comparisonCurrencies = st.comparisonCurrencies →
        updateComparisonChart el st2 = updateComparisonChart el st)
    ∧ (∀ sel : List String,
        updateComparisonChart el (applyFilters { el with currencySelect := sel } st)
          = updateComparisonChart el st)
    ∧ W.Perm (st.data.filter fun r => decide (r.currency = c
        ∧ (el.dateStart = "" ∨ el.dateStart ≤ r.date) ∧ (el.dateEnd = "" ∨ r.date ≤ el.dateEnd)))
    ∧ IsStableSort (fun a b : String => a ≤ b) (fun r : Record => r.date) W
        (st.data.filter fun r => decide (r.currency = c
          ∧ (el.dateStart = "" ∨ el.dateStart ≤ r.date) ∧ (el.dateEnd = "" ∨ r.date ≤ el.dateEnd)))
    ∧ (W = [] → comparisonDataset st.data el.dateStart el.dateEnd c = none
        ∧ ∀ ds ∈ updateComparisonChart el st, ds.label ≠ c ++ " (variație %)")
    ∧ (∀ first rest, W = first :: rest →
        ∃ ds, comparisonDataset st.data el.dateStart el.dateEnd c = some ds
          ∧ (c ∈ st.comparisonCurrencies → ds ∈ updateComparisonChart el st)
          ∧ (∀ ds2 ∈ updateComparisonChart el st, ds2.label = c ++ " (variație %)" → ds2 = ds)
          ∧ ds.label = c ++ " (variație %)"
          ∧ ds.data = W.map (fun d =>
              { x := d.date
                y := toFixed (jsMul (jsDiv (jsSub (toNum d.value) (toNum first.value))
                  (toNum first.value)) (JSNum.fin 100)) 2 })
          ∧ ds.data.head? = some { x := first.date, y := "0.00" }
          ∧ (W.map (fun d => d.value) = [2, 22 / 10] →
              ds.data.map (fun p => p.y) = ["0.00", "10.00"])) := by
  have hlabel : ∀ ds c2, comparisonDataset st.data el.dateStart el.dateEnd c2 = some ds →
      ds.label = c2 ++ " (variație %)" := by
    intro ds c2 h
    unfold comparisonDataset at h
    dsimp only at h
    split at h
    · cases h
    · split at h
      · cases h
      · simp only [Option.some.injEq] at h
        rw [← h]
  have hmem : ∀ ds, ds ∈ updateComparisonChart el st ↔
      ∃ c2 ∈ st.comparisonCurrencies,
        comparisonDataset st.data el.dateStart el.dateEnd c2 = some ds := by
    intro ds
    simp [updateComparisonChart, List.mem_filterMap]
  have hfilter : ((st.data.filter fun d => d.currency == c).filter fun d =>
        if truthy el.dateStart && strLt d.date el.dateStart then false
        else if truthy el.dateEnd && strLt el.dateEnd d.date then false
        else true)
      = st.data.filter fun r => decide (r.currency = c
        ∧ (el.dateStart = "" ∨ el.dateStart ≤ r.date) ∧ (el.dateEnd = "" ∨ r.date ≤ el.dateEnd)) := by
    rw [List.filter_filter]
    apply List.filter_congr
    intro x _
    rw [inRange_iff]
    have e : (x.currency == c) = decide (x.currency = c) := rfl
    rw [e]
    by_cases h1 : x.currency = c <;>
      by_cases h2 : ((el.dateStart = "" ∨ el.dateStart ≤ x.date)
        ∧ (el.dateEnd = "" ∨ x.date ≤ el.dateEnd))
    · rw [decide_eq_true h1, decide_eq_true h2, decide_eq_true (And.intro h1 h2)]; rfl
    · rw [decide_eq_true h1, decide_eq_false h2, decide_eq_false (fun h => h2 h.2)]; rfl
    · rw [decide_eq_false h1, decide_eq_true h2, decide_eq_false (fun h => h1 h.1)]; rfl
    · rw [decide_eq_false h1, decide_eq_false h2, decide_eq_false (fun h => h1 h.1)]; rfl
  have hsort := sortByDate_asc (fun r : Record => r.date)
    ((st.data.filter fun d => d.currency == c).filter fun d =>
        if truthy el.dateStart && strLt d.date el.dateStart then false
        else if truthy el.dateEnd && strLt el.dateEnd d.date then false
        else true)
    (fun x hx => hdate x (List.mem_of_mem_filter (List.mem_of_mem_filter hx)))
  have hW2 : W = arraySort (fun a b => dateDiff a.date b.date)
      ((st.data.filter fun d => d.currency == c).filter fun d =>
        if truthy el.dateStart && strLt d.date el.dateStart then false
        else if truthy el.dateEnd && strLt el.dateEnd d.date then false
        else true) := hW
  have hWmem : ∀ r ∈ W, r ∈ st.data := by
    intro r hr
    rw [hW2] at hr
    exact List.mem_of_mem_filter (List.mem_of_mem_filter (hsort.1.mem_iff.1 hr))
  have hindep : ∀ st2 : AppState, st2.data = st.data →
      st2.comparisonCurrencies = st.comparisonCurrencies →
      updateComparisonChart el st2 = updateComparisonChart el st := by
    intro st2 h1 h2
    simp only [updateComparisonChart, h1, h2]
  refine ⟨hindep, fun sel => hindep _ rfl rfl, ?_, ?_, ?_, ?_⟩
  · rw [hW2, ← hfilter]; exact hsort.1
  · rw [hW2, ← hfilter]; exact hsort.2
  · intro hnil
    have hn : comparisonDataset st.data el.dateStart el.dateEnd c = none := by
      simp [comparisonDataset, ← hW, hnil]
    refine ⟨hn, ?_⟩
    intro ds hds hl
    obtain ⟨c2, -, h2⟩ := (hmem ds).1 hds
    have h3 := hlabel ds c2 h2
    rw [hl] at h3
    have := string_append_right_cancel _ _ _ h3
    subst this
    rw [hn] at h2
    cases h2
  · intro first rest hWf
    have hfirst0 : posNumber first.value = true :=
      hpos first (hWmem first (by rw [hWf]; exact List.mem_cons_self _ _))
    have hds : comparisonDataset st.data el.dateStart el.dateEnd c = some
        { label := c ++ " (variație %)"
          data := W.map fun d =>
            { x := d.date
              y := toFixed (jsMul (jsDiv (jsSub (toNum d.value) (toNum first.value))
                (toNum first.value)) (JSNum.fin 100)) 2 } } := by
      simp [comparisonDataset, ← hW, hWf, elemAt, percentText, percentChange]
    refine ⟨_, hds, ?_, ?_, rfl, rfl, ?_, ?_⟩
    · intro hc
      exact (hmem _).2 ⟨c, hc, hds⟩
    · intro ds2 hds2 hl
      obtain ⟨c2, -, h2⟩ := (hmem ds2).1 hds2
      have h3 := hlabel ds2 c2 h2
      rw [hl] at h3
      have := string_append_right_cancel _ _ _ h3
      subst this
      rw [hds] at h2
      exact (Option.some.inj h2).symm
    · simp only [hWf, List.map_cons, List.head?_cons, percentText_self _ hfirst0]
    · intro hvals
      rw [hWf] at hvals ⊢
      match rest, hvals with
      | [b], hvals =>
        simp only [List.map_cons, List.map_nil, List.cons.injEq, and_true] at hvals
        obtain ⟨h1, h2⟩ := hvals
        simp only [List.map_cons, List.map_nil, percentText_self _ hfirst0]
        rw [h1, h2, percentChange_example_ten]
      | [], hvals => simp at hvals
      | _ :: _ :: _, hvals => simp at hvals

/-- Witness for C4: GBP records 2.00 and 2.20 inside the window, one before it. -/
theorem updateComparisonChart_spec_witness :
    ∃ ds, comparisonDataset [⟨"2024-01-03", "GBP", 22 / 10⟩, ⟨"2024-01-01", "GBP", 1⟩,
        ⟨"2024-01-02", "GBP", 2⟩, ⟨"2024-01-02", "USD", 4⟩] "2024-01-02" "" "GBP" = some ds
      ∧ ds.data.map (fun p => p.y) = ["0.00", "10.00"] := by
  have h := updateComparisonChart_spec ⟨[], "2024-01-02", "", "", ""⟩
    ⟨[⟨"2024-01-03", "GBP", 22 / 10⟩, ⟨"2024-01-01", "GBP", 1⟩,
        ⟨"2024-01-02", "GBP", 2⟩, ⟨"2024-01-02", "USD", 4⟩], [], [], ["GBP"]⟩
    (by decide) (by decide!) "GBP" _ rfl
  obtain ⟨ds, h1, -, -, -, -, -, h2⟩ := h.2.2.2.2.2
    ⟨"2024-01-02", "GBP", 2⟩ [⟨"2024-01-03", "GBP", 22 / 10⟩] (by decide!)
  exact ⟨ds, h1, h2 (by decide!)⟩

/-! ## Source parser: theorems -/

theorem foldl_push_filterMap {β γ : Type} (g : β → Option γ) (l : List β) (acc : List γ) :
    l.foldl (fun data x => data ++ (g x).toList) acc = acc ++ l.filterMap g := by
  induction l generalizing acc with
  | nil => simp
  | cons x xs ih =>
    rw [List.foldl_cons, ih]
    cases h : g x <;> simp [List.filterMap_cons, h]

/-- The two nested loops of parseXMLData, block by block. -/
theorem parseXMLData_eq_flatMap (xmlDoc : XmlDoc) :
    parseXMLData xmlDoc = xmlDoc.flatMap blockRecords := by
  have h : ∀ (l : List CubeEl) (acc : List ParsedRecord),
      l.foldl (fun data cube =>
        match cube.date with
        | none => data
        | some date =>
          if date = "" then data
          else cube.rates.foldl (fun data rate => data ++ (rateRecord date rate).toList) data)
        acc = acc ++ l.flatMap blockRecords := by
    intro l
    induction l with
    | nil => intro acc; simp
    | cons cube cubes ih =>
      intro acc
      rw [List.foldl_cons, ih, List.flatMap_cons, ← List.append_assoc]
      congr 1
      unfold blockRecords
      cases hd : cube.date with
      | none => simp
      | some date =>
        by_cases he : date = ""
        · simp [he]
        · simp only [he, if_false]
          exact foldl_push_filterMap (rateRecord date) cube.rates acc
  have := h xmlDoc []
  simpa [parseXMLData] using this

theorem isDigit_not_special (c : Char) (h : isDigit c = true) :
    isWhiteSpace c = false ∧ c ≠ '-' ∧ c ≠ '+' ∧ c ≠ '.' ∧ c ≠ 'x' ∧ c ≠ 'X' := by
  have hn := isDigit_toNat c h
  refine ⟨?_, ?_, ?_, ?_, ?_, ?_⟩
  · simp only [isWhiteSpace, List.contains_eq_any_beq, List.any_cons, List.any_nil,
      Bool.or_false, Bool.or_eq_false_iff, beq_eq_false_iff_ne, ne_eq]
    omega
  all_goals
    intro e
    rw [e] at h
    revert h
    decide

theorem takeWhile_all {α : Type} (p : α → Bool) (l : List α) (h : l.all p = true) :
    l.takeWhile p = l ∧ l.dropWhile p = [] := by
  induction l with
  | nil => simp
  | cons x xs ih =>
    simp only [List.all_cons, Bool.and_eq_true] at h
    simp [List.takeWhile_cons, List.dropWhile_cons, h.1, ih h.2]

/-- On a decimal text body parseFloat returns the text read as a decimal. -/
theorem parseFloat_decimal (s : String) (h : isDecimalText s = true) :
    parseFloat s = some (readDecimal s) := by
  unfold isDecimalText at h
  simp only [Bool.and_eq_true, Bool.not_eq_true', Bool.or_eq_true, beq_iff_eq] at h
  obtain ⟨ha, hr⟩ := h
  rcases hcs : s.data with _ | ⟨c0, rest⟩
  · rw [hcs] at ha; simp at ha
  have hc0 : isDigit c0 = true := by
    rw [hcs] at ha
    by_contra hne
    simp [List.takeWhile_cons, hne] at ha
  obtain ⟨hw, hm, hp, -, -, -⟩ := isDigit_not_special c0 hc0
  have hdw : (c0 :: rest).dropWhile isWhiteSpace = c0 :: rest := by
    simp [List.dropWhile_cons, hw]
  have hds : dropSign (c0 :: rest) = c0 :: rest := by
    unfold dropSign
    split
    · rename_i e; exact absurd (List.cons.inj e).1 hm
    · rename_i e; exact absurd (List.cons.inj e).1 hp
    · rfl
  have htw : (c0 :: rest).takeWhile isDigit ≠ [] := by
    simp [List.takeWhile_cons, hc0]
  rw [hcs] at hr
  unfold parseFloat readDecimal
  simp only [hcs, hdw, hds]
  rcases hr with hr | ⟨⟨hr1, hr2⟩, hr3⟩
  · have hr' : (c0 :: rest).dropWhile isDigit = [] := List.isEmpty_iff.1 hr
    simp [hr', htw, exponentOf, hm]
  · rcases hrr : (c0 :: rest).dropWhile isDigit with _ | ⟨d, t⟩
    · rw [hrr] at hr1; simp at hr1
    · rw [hrr] at hr1 hr2 hr3
      simp only [List.head?_cons, Option.some.injEq] at hr1
      simp only [List.tail_cons] at hr2 hr3
      subst hr1
      obtain ⟨ht1, ht2⟩ := takeWhile_all isDigit t hr3
      simp [ht1, ht2, htw, exponentOf, hm]

/-- On a present multiplier attribute that is a digit string parseInt returns
its value. -/
theorem parseInt_numeral (s : String) (hne : s.data ≠ []) (hd : s.data.all isDigit = true) :
    parseInt (some s) = some (decValue s.data : Int) := by
  rcases hcs : s.data with _ | ⟨c0, rest⟩
  · exact absurd hcs hne
  rw [hcs] at hd
  have hd' := hd
  simp only [List.all_cons, Bool.and_eq_true] at hd
  obtain ⟨hw, hm, hp, -, -, -⟩ := isDigit_not_special c0 hd.1
  have hdw : (c0 :: rest).dropWhile isWhiteSpace = c0 :: rest := by
    simp [List.dropWhile_cons, hw]
  have hds : dropSign (c0 :: rest) = c0 :: rest := by
    unfold dropSign
    split
    · rename_i e; exact absurd (List.cons.inj e).1 hm
    · rename_i e; exact absurd (List.cons.inj e).1 hp
    · rfl
  have htw := (takeWhile_all isDigit (c0 :: rest) hd').1
  unfold parseInt
  simp only [hcs, hdw, hds]
  split
  · rename_i r e
    have : isDigit 'x' = true := by
      have h2 := (List.cons.inj e).2
      rw [h2] at hd
      simp only [List.all_cons, Bool.and_eq_true] at hd
      exact hd.2.1
    exact absurd this (by decide)
  · rename_i r e
    have : isDigit 'X' = true := by
      have h2 := (List.cons.inj e).2
      rw [h2] at hd
      simp only [List.all_cons, Bool.and_eq_true] at hd
      exact hd.2.1
    exact absurd this (by decide)
  · simp [htw, hm]

/-- On a well-formed rate entry the record pushed is the prescribed one. -/
theorem rateRecord_wellFormed (date : String) (rate : RateEl)
    (h : (rate.currency.isSome && isMultiplierAttr rate.multiplier
      && isDecimalText rate.textContent) = true) :
    rateRecord date rate = expectedRecord date rate := by
  simp only [Bool.and_eq_true] at h
  obtain ⟨⟨-, hm⟩, ht⟩ := h
  unfold rateRecord expectedRecord
  cases hc : rate.currency with
  | none => rfl
  | some currency =>
    by_cases hin : currency ∈ CURRENCIES
    · have hcont : CURRENCIES.contains currency = true := by simpa using hin
      simp only [hcont, hin, if_true, parseFloat_decimal _ ht, Option.map_some']
      cases hmul : rate.multiplier with
      | none => simp [parseInt, readMultiplier]
      | some m =>
        rw [hmul] at hm
        simp only [isMultiplierAttr, Bool.and_eq_true, Bool.not_eq_true',
          decide_eq_true_eq] at hm
        obtain ⟨⟨h1, h2⟩, h3⟩ := hm
        have hne : m.data ≠ [] := by
          intro e; rw [e] at h1; simp at h1
        have h0 : (decValue m.data : Int) ≠ 0 := by
          have : (0 : Int) < (decValue m.data : Int) := by exact_mod_cast h3
          omega
        simp [parseInt_numeral m hne h2, readMultiplier, h0]
    · have hcont : CURRENCIES.contains currency = false := by simpa using hin
      simp [hcont, hin]

/-- C6: on a well-formed rate document parseXMLData emits, in document order,
one record for every rate entry of a supported currency inside a block with a
(non-empty) date and none for any other entry; the currency of every emitted
record is supported, its date is that of the block, and its value is the text
body read as a decimal over the multiplier, 1 when the attribute is absent. -/
theorem parseXMLData_spec (xmlDoc : XmlDoc) (hwf : wellFormedDoc xmlDoc = true) :
    parseXMLData xmlDoc = xmlDoc.flatMap (fun cube =>
        match cube.date with
        | none => []
        | some date => if date = "" then [] else cube.rates.filterMap (expectedRecord date))
    ∧ ∀ r ∈ parseXMLData xmlDoc,
        r.currency ∈ CURRENCIES
        ∧ ∃ cube ∈ xmlDoc, cube.date = some r.date ∧ r.date ≠ ""
          ∧ ∃ rate ∈ cube.rates, rate.currency = some r.currency
            ∧ r.value = some (readDecimal rate.textContent / (readMultiplier rate.multiplier : ℚ))
            ∧ (rate.multiplier = none → r.value = some (readDecimal rate.textContent)) := by
  have h1 : parseXMLData xmlDoc = xmlDoc.flatMap (fun cube =>
        match cube.date with
        | none => []
        | some date => if date = "" then [] else cube.rates.filterMap (expectedRecord date)) := by
    rw [parseXMLData_eq_flatMap]
    apply List.flatMap_congr
    intro cube hcube
    unfold blockRecords
    cases hd : cube.date with
    | none => rfl
    | some date =>
      by_cases he : date = ""
      · simp [he]
      · simp only [he, if_false]
        apply List.filterMap_congr
        intro rate hrate
        apply rateRecord_wellFormed
        have := (List.all_eq_true.1 hwf) cube hcube
        exact (List.all_eq_true.1 this) rate hrate
  refine ⟨h1, ?_⟩
  intro r hr
  rw [h1, List.mem_flatMap] at hr
  obtain ⟨cube, hcube, hrc⟩ := hr
  cases hd : cube.date with
  | none => rw [hd] at hrc; simp at hrc
  | some date =>
    rw [hd] at hrc
    by_cases he : date = ""
    · simp [he] at hrc
    · simp only [he, if_false, List.mem_filterMap] at hrc
      obtain ⟨rate, hrate, hexp⟩ := hrc
      unfold expectedRecord at hexp
      cases hc : rate.currency with
      | none => rw [hc] at hexp; simp at hexp
      | some currency =>
        rw [hc] at hexp
        by_cases hin : currency ∈ CURRENCIES
        · simp only [hin, if_true, Option.some.injEq] at hexp
          subst hexp
          refine ⟨hin, cube, hcube, hd, he, rate, hrate, hc, rfl, ?_⟩
          intro hnone
          simp [hnone, readMultiplier]
        · simp [hin] at hexp

/-- Witness for C6: a block with an EUR entry, an entry with multiplier 100
and an unsupported currency. -/
theorem parseXMLData_spec_witness :
    parseXMLData [⟨some "2024-01-03", [⟨some "EUR", none, "4.9753"⟩,
        ⟨some "GBP", some "100", "578"⟩, ⟨some "HUF", some "100", "1.2534"⟩]⟩, ⟨none, []⟩]
      = [⟨"2024-01-03", "EUR", some (49753 / 10000)⟩, ⟨"2024-01-03", "GBP", some (578 / 100)⟩] := by
  have h := (parseXMLData_spec [⟨some "2024-01-03", [⟨some "EUR", none, "4.9753"⟩,
        ⟨some "GBP", some "100", "578"⟩, ⟨some "HUF", some "100", "1.2534"⟩]⟩, ⟨none, []⟩]
      (by decide)).1
  rw [h]
  decide!

/-- Refutation of C8 as stated: a block whose date attribute is not a
parseable date (month 13, day 45) is not skipped; its EUR entry is emitted
with that date. -/
theorem parseXMLData_unparseable_date_emitted :
    validDate "2024-13-45" = false
      ∧ parseXMLData [⟨some "2024-13-45", [⟨some "EUR", none, "4.97"⟩]⟩]
        = [⟨"2024-13-45", "EUR", some (497 / 100)⟩] := by
  decide!

/-- C8 as amended: a block whose date attribute is missing or empty is
skipped entirely, whatever its entries are: the output is the same as without
the block, and every emitted record carries the non-empty date attribute of
its block. -/
theorem parseXMLData_skips_undated (xmlDoc : XmlDoc) :
    (∀ (before after : List CubeEl) (cube : CubeEl), xmlDoc = before ++ cube :: after →
        (cube.date = none ∨ cube.date = some "") →
        parseXMLData xmlDoc = parseXMLData (before ++ after))
    ∧ parseXMLData xmlDoc = parseXMLData (xmlDoc.filter hasDate)
    ∧ ∀ r ∈ parseXMLData xmlDoc, r.date ≠ ""
        ∧ ∃ cube ∈ xmlDoc, cube.date = some r.date
          ∧ ∃ rate ∈ cube.rates, rateRecord r.date rate = some r := by
  have hnil : ∀ cube : CubeEl, hasDate cube = false → blockRecords cube = [] := by
    intro cube h
    unfold hasDate at h
    unfold blockRecords
    cases hd : cube.date with
    | none => rfl
    | some date =>
      rw [hd] at h
      simp only [decide_eq_false_iff_not, ne_eq, not_not] at h
      simp [h]
  refine ⟨?_, ?_, ?_⟩
  · intro before after cube hdoc hcube
    have hf : hasDate cube = false := by
      unfold hasDate
      rcases hcube with h | h
      · rw [h]
      · rw [h]; simp
    rw [hdoc, parseXMLData_eq_flatMap, parseXMLData_eq_flatMap, List.flatMap_append,
      List.flatMap_cons, hnil cube hf, List.nil_append, List.flatMap_append]
  · rw [parseXMLData_eq_flatMap, parseXMLData_eq_flatMap]
    induction xmlDoc with
    | nil => rfl
    | cons cube cubes ih =>
      cases hd : hasDate cube
      · rw [List.filter_cons_of_neg (by simp [hd]), List.flatMap_cons, hnil cube hd,
          List.nil_append, ih]
      · rw [List.filter_cons_of_pos hd, List.flatMap_cons, List.flatMap_cons, ih]
  · intro r hr
    rw [parseXMLData_eq_flatMap, List.mem_flatMap] at hr
    obtain ⟨cube, hcube, hrc⟩ := hr
    unfold blockRecords at hrc
    cases hd : cube.date with
    | none => rw [hd] at hrc; simp at hrc
    | some date =>
      rw [hd] at hrc
      by_cases he : date = ""
      · simp [he] at hrc
      · simp only [he, if_false, List.mem_filterMap] at hrc
        obtain ⟨rate, hrate, hrec⟩ := hrc
        have hdate : r.date = date := by
          unfold rateRecord at hrec
          split at hrec
          · cases hrec
          · split at hrec
            · simp only [Option.some.injEq] at hrec
              rw [← hrec]
            · cases hrec
        rw [hdate]
        exact ⟨he, cube, hcube, hd, rate, hrate, hdate ▸ hrec⟩

/-! ## Data acquisition: theorems -/

theorem foldl_years (years : List (Option (List Record))) (acc : List Record) :
    years.foldl (fun allData year =>
      match year with
      | some yearData => allData ++ yearData
      | none => allData) acc = acc ++ retrieved years := by
  induction years generalizing acc with
  | nil => simp [retrieved]
  | cons y ys ih =>
    rw [List.foldl_cons, ih]
    cases y <;> simp [retrieved]

/-- Refutation of C9 as stated: a year yields a record, a later step raises an
error, and the run ends with the generator called and its output stored as the
dataset in place of the retrieved record. -/
theorem fetchBNRData_fallback_despite_records :
    retrieved [some [⟨"2024-01-03", "EUR", 497 / 100⟩], none] ≠ []
      ∧ (fetchBNRData ⟨["EUR", "USD"], "", "", "", ""⟩ (fun _ => [⟨"2024-01-05", "USD", 455 / 100⟩])
          [some [⟨"2024-01-03", "EUR", 497 / 100⟩], none] true ⟨[], [], [], []⟩).state.data
        = [⟨"2024-01-05", "USD", 455 / 100⟩]
      ∧ (fetchBNRData ⟨["EUR", "USD"], "", "", "", ""⟩ (fun _ => [⟨"2024-01-05", "USD", 455 / 100⟩])
          [some [⟨"2024-01-03", "EUR", 497 / 100⟩], none] true ⟨[], [], [], []⟩).generatorCalls
        = 1 := by
  decide!

/-- C9 as amended: the generator is called, and its output stored as the
dataset, only when the concatenation of the retrieved years is empty or a later
step of the run raises an error.  When some year yields a record and the later
steps complete, the generator is not called and the stored dataset is the
retrieved records reordered by the sort (in ascending date order when the
dates are valid); when nothing is retrieved and the later steps complete, the
dataset is the sorted output of one generator call; when a later step raises
an error the dataset is the output of a fresh generator call. -/
theorem fetchBNRData_spec (el : Elements) (gen : Nat → List Record)
    (years : List (Option (List Record))) (applyFiltersThrows : Bool) (st : AppState) :
    (0 < (fetchBNRData el gen years applyFiltersThrows st).generatorCalls
        ↔ retrieved years = [] ∨ applyFiltersThrows = true)
    ∧ (applyFiltersThrows = false → retrieved years ≠ [] →
        (fetchBNRData el gen years applyFiltersThrows st).generatorCalls = 0
        ∧ (fetchBNRData el gen years applyFiltersThrows st).state.data.Perm (retrieved years)
        ∧ ((∀ r ∈ retrieved years, validDate r.date = true) →
            (fetchBNRData el gen years applyFiltersThrows st).state.data.Pairwise
              (fun a b => a.date ≤ b.date)))
    ∧ (applyFiltersThrows = false → retrieved years = [] →
        (fetchBNRData el gen years applyFiltersThrows st).generatorCalls = 1
        ∧ (fetchBNRData el gen years applyFiltersThrows st).state.data.Perm (gen 0))
    ∧ (applyFiltersThrows = true →
        (fetchBNRData el gen years applyFiltersThrows st).alerted = true
        ∧ (fetchBNRData el gen years applyFiltersThrows st).state.data
          = gen ((fetchBNRData el gen years applyFiltersThrows st).generatorCalls - 1)) := by
  have hfold := foldl_years years []
  simp only [List.nil_append] at hfold
  have hdata : (fetchBNRData el gen years applyFiltersThrows st).state.data
      = if applyFiltersThrows = true then gen (if (retrieved years).length = 0 then 1 else 0)
        else arraySort (fun a b => dateDiff a.date b.date)
          (if (retrieved years).length = 0 then gen 0 else retrieved years) := by
    unfold fetchBNRData
    rw [hfold]
    cases applyFiltersThrows <;> rfl
  have hcalls : (fetchBNRData el gen years applyFiltersThrows st).generatorCalls
      = (if (retrieved years).length = 0 then 1 else 0)
        + (if applyFiltersThrows = true then 1 else 0) := by
    unfold fetchBNRData
    rw [hfold]
    cases applyFiltersThrows <;> rfl
  have halert : (fetchBNRData el gen years applyFiltersThrows st).alerted
      = applyFiltersThrows := by
    unfold fetchBNRData
    cases applyFiltersThrows <;> rfl
  rw [hdata, hcalls, halert]
  have hlen : (retrieved years).length = 0 ↔ retrieved years = [] := List.length_eq_zero
  refine ⟨?_, ?_, ?_, ?_⟩
  · by_cases hr : retrieved years = [] <;> cases applyFiltersThrows <;> simp [hr]
  · intro ht hr
    have hl : ¬ (retrieved years).length = 0 := fun h => hr (hlen.1 h)
    rw [ht]
    simp only [hl, if_false, Bool.false_eq_true]
    refine ⟨trivial, arraySort_perm _ _, ?_⟩
    intro hv
    exact (sortByDate_asc (fun r : Record => r.date) (retrieved years) hv).2.1
  · intro ht hr
    have hl : (retrieved years).length = 0 := hlen.2 hr
    rw [ht]
    simp only [hl, if_true, Bool.false_eq_true, if_false]
    exact ⟨trivial, arraySort_perm _ _⟩
  · intro ht
    rw [ht]
    simp

/-! ## The text of toFixed: value -/

theorem decValue_append (cs ds : List Char) :
    decValue (cs ++ ds) = decValue cs * 10 ^ ds.length + decValue ds := by
  have h : ∀ (ds : List Char) (a : Nat),
      ds.foldl (fun acc c => acc * 10 + digitVal c) a
        = a * 10 ^ ds.length + ds.foldl (fun acc c => acc * 10 + digitVal c) 0 := by
    intro ds
    induction ds with
    | nil => intro a; simp
    | cons d ds ih =>
      intro a
      rw [List.foldl_cons, ih, List.foldl_cons, ih (0 * 10 + digitVal d), List.length_cons]
      ring
  unfold decValue
  rw [List.foldl_append, h]

theorem digitVal_digitChar : ∀ k, k < 10 → digitVal (Nat.digitChar k) = k := by decide

theorem toDigitsCore_value (fuel n : Nat) (ds : List Char) (h : n < fuel) :
    ∃ cs, Nat.toDigitsCore 10 fuel n ds = cs ++ ds ∧ decValue cs = n := by
  induction fuel generalizing n ds with
  | zero => omega
  | succ fuel ih =>
    have hd := digitVal_digitChar (n % 10) (Nat.mod_lt _ (by norm_num))
    simp only [Nat.toDigitsCore]
    split
    · rename_i h0
      refine ⟨[Nat.digitChar (n % 10)], rfl, ?_⟩
      simp only [decValue, List.foldl_cons, List.foldl_nil, hd]
      omega
    · rename_i h0
      obtain ⟨cs, h1, h2⟩ := ih (n / 10) (Nat.digitChar (n % 10) :: ds) (by omega)
      refine ⟨cs ++ [Nat.digitChar (n % 10)], ?_, ?_⟩
      · rw [h1]; simp
      · rw [decValue_append, h2]
        simp only [decValue, List.foldl_cons, List.foldl_nil, hd, List.length_singleton]
        omega

theorem decValue_toDigits (n : Nat) : decValue (Nat.toDigits 10 n) = n := by
  obtain ⟨cs, h1, h2⟩ := toDigitsCore_value (n + 1) n [] (by omega)
  rw [Nat.toDigits, h1, List.append_nil, h2]

theorem decValue_replicate_zero (k : Nat) (m : List Char) :
    decValue (List.replicate k '0' ++ m) = decValue m := by
  have h : decValue (List.replicate k '0') = 0 := by
    induction k with
    | zero => rfl
    | succ k ih =>
      have e : List.replicate (k + 1) '0' = List.replicate k '0' ++ ['0'] := by
        rw [List.replicate_succ']
      rw [e, decValue_append, ih]
      rfl
  rw [decValue_append, h]
  simp

theorem digitChar_ne_zero : ∀ k, k < 10 → k ≠ 0 → Nat.digitChar k ≠ '0' := by decide

theorem toDigitsCore_head (fuel n : Nat) (ds : List Char) (h : n < fuel) (hn : n ≠ 0) :
    ∃ c rest, Nat.toDigitsCore 10 fuel n ds = c :: rest ∧ c ≠ '0' := by
  induction fuel generalizing n ds with
  | zero => omega
  | succ fuel ih =>
    simp only [Nat.toDigitsCore]
    split
    · rename_i h0
      refine ⟨_, _, rfl, ?_⟩
      have h10 : n < 10 := by omega
      rw [Nat.mod_eq_of_lt h10]
      exact digitChar_ne_zero n h10 hn
    · rename_i h0
      exact ih (n / 10) _ (by omega) h0

/-- The decimal numeral of a positive integer does not start with 0. -/
theorem toDigits_head (n : Nat) (hn : n ≠ 0) :
    ∃ c rest, Nat.toDigits 10 n = c :: rest ∧ c ≠ '0' :=
  toDigitsCore_head (n + 1) n [] (by omega) hn

/-- The text of toFixed(f) for f > 0: an integer part without a leading zero
(the single digit 0 apart), the point, and exactly f digits; the digits read
as the integer n, so the text stands for n / 10^f. -/
theorem fixedDigits_spec (n f : Nat) (hf : f ≠ 0) :
    ∃ a b : List Char, fixedDigits n f = a ++ '.' :: b ∧ b.length = f
      ∧ (∀ c ∈ a ++ b, isDigit c = true)
      ∧ (a = ['0'] ∨ (a ≠ [] ∧ a.head? ≠ some '0'))
      ∧ decValue (a ++ b) = n := by
  have hdig := toDigits_isDigit n
  unfold fixedDigits
  dsimp only
  rw [if_pos hf]
  split_ifs with h
  · refine ⟨_, _, rfl, ?_, ?_, Or.inl ?_, ?_⟩
    · simp only [List.length_drop, List.length_append, List.length_replicate]; omega
    · rw [List.take_append_drop]
      intro c hc
      rcases List.mem_append.1 hc with h1 | h1
      · rw [(List.mem_replicate.1 h1).2]; rfl
      · exact hdig c h1
    · have e1 : (List.replicate (f + 1 - (Nat.toDigits 10 n).length) '0'
          ++ Nat.toDigits 10 n).length - f = 1 := by
        simp only [List.length_append, List.length_replicate]; omega
      have e2 : f + 1 - (Nat.toDigits 10 n).length
          = (f - (Nat.toDigits 10 n).length) + 1 := by omega
      rw [e1, e2, List.replicate_succ]
      rfl
    · rw [List.take_append_drop, decValue_replicate_zero, decValue_toDigits]
  · have hn : n ≠ 0 := by
      intro h0
      rw [h0] at h
      have : (Nat.toDigits 10 0).length = 1 := by decide
      omega
    obtain ⟨c, rest, hc, hc0⟩ := toDigits_head n hn
    refine ⟨_, _, rfl, ?_, ?_, Or.inr ?_, ?_⟩
    · simp only [List.length_drop]; omega
    · rw [List.take_append_drop]; exact hdig
    · obtain ⟨k, hk⟩ : ∃ k, (Nat.toDigits 10 n).length - f = k + 1 :=
        ⟨(Nat.toDigits 10 n).length - f - 1, by omega⟩
      rw [hk, hc, List.take_succ_cons]
      refine ⟨List.cons_ne_nil _ _, ?_⟩
      simp only [List.head?_cons, ne_eq, Option.some.injEq]
      exact hc0
    · rw [List.take_append_drop, decValue_toDigits]

/-- The method toFixed(f), f > 0, on a finite Number x below 10^21 in
magnitude rounds to the nearest multiple of 10^-f: its text is the sign, an
integer part without a leading zero, the point and f digits, and the digits
read as the integer n with | n / 10^f - |x| | at most half of 10^-f (n is the
larger candidate on a tie). -/
theorem fixedText_rounds (x : ℚ) (f : Nat) (hf : f ≠ 0) (hx : |x| < 10 ^ 21) :
    ∃ a b : List Char,
      (fixedText x f).data = (if x < 0 then ['-'] else []) ++ (a ++ '.' :: b)
        ∧ b.length = f
        ∧ (∀ c ∈ a ++ b, isDigit c = true)
        ∧ (a = ['0'] ∨ (a ≠ [] ∧ a.head? ≠ some '0'))
        ∧ |x| * 10 ^ f - 1 / 2 < (decValue (a ++ b) : ℚ)
        ∧ (decValue (a ++ b) : ℚ) ≤ |x| * 10 ^ f + 1 / 2 := by
  have habs : (if x < 0 then -x else x) = |x| := by
    split
    · rename_i h; rw [abs_of_neg h]
    · rename_i h; rw [abs_of_nonneg (not_lt.1 h)]
  obtain ⟨a, b, h1, h2, h3, h4, h5⟩ := fixedDigits_spec ⌊|x| * 10 ^ f + 1 / 2⌋.toNat f hf
  have hnn : (0 : ℤ) ≤ ⌊|x| * 10 ^ f + 1 / 2⌋ := by
    apply Int.floor_nonneg.2
    positivity
  have hcast : ((⌊|x| * 10 ^ f + 1 / 2⌋.toNat : ℕ) : ℚ)
      = ((⌊|x| * 10 ^ f + 1 / 2⌋ : ℤ) : ℚ) := by
    rw [← Int.cast_natCast, Int.toNat_of_nonneg hnn]
  refine ⟨a, b, ?_, h2, h3, h4, ?_, ?_⟩
  · have e : fixedText x f = (if x < 0 then "-" else "")
        ++ String.mk (fixedDigits ⌊|x| * 10 ^ f + 1 / 2⌋.toNat f) := by
      unfold fixedText
      dsimp only
      rw [habs, if_neg (not_le.2 hx)]
    rw [e, String.data_append, h1]
    split <;> rfl
  · rw [h5, hcast]
    have := Int.lt_floor_add_one (|x| * 10 ^ f + 1 / 2)
    linarith
  · rw [h5, hcast]
    exact Int.floor_le _

/-! ## The text of toFixed: uniqueness -/

theorem decValue_cons (c : Char) (rest : List Char) :
    decValue (c :: rest) = digitVal c * 10 ^ rest.length + decValue rest := by
  have h := decValue_append [c] rest
  have h1 : decValue [c] = digitVal c := by simp [decValue]
  rw [h1] at h
  exact h

theorem digitVal_le (c : Char) (h : isDigit c = true) : digitVal c ≤ 9 := by
  have := isDigit_toNat c h
  unfold digitVal
  omega

theorem digitVal_inj (c d : Char) (hc : isDigit c = true) (hd : isDigit d = true)
    (h : digitVal c = digitVal d) : c = d := by
  have h1 := isDigit_toNat c hc
  have h2 := isDigit_toNat d hd
  apply char_eq_of_toNat
  unfold digitVal at h
  omega

/-- A numeral of k digits stands for an integer below 10^k. -/
theorem decValue_lt (l : List Char) (h : ∀ c ∈ l, isDigit c = true) :
    decValue l < 10 ^ l.length := by
  induction l with
  | nil => simp [decValue]
  | cons c rest ih =>
    have h1 := digitVal_le c (h c (List.mem_cons_self _ _))
    have h2 := ih (fun d hd => h d (List.mem_cons_of_mem _ hd))
    rw [decValue_cons, List.length_cons, pow_succ]
    nlinarith

/-- Two numerals of the same number of digits for the same integer are equal. -/
theorem decValue_inj (l1 l2 : List Char) (hlen : l1.length = l2.length)
    (h1 : ∀ c ∈ l1, isDigit c = true) (h2 : ∀ c ∈ l2, isDigit c = true)
    (hv : decValue l1 = decValue l2) : l1 = l2 := by
  induction l1 generalizing l2 with
  | nil =>
    cases l2 with
    | nil => rfl
    | cons _ _ => simp at hlen
  | cons c r1 ih =>
    cases l2 with
    | nil => simp at hlen
    | cons d r2 =>
      have hl : r1.length = r2.length := by simpa using hlen
      have hr1 := decValue_lt r1 (fun x hx => h1 x (List.mem_cons_of_mem _ hx))
      have hr2 := decValue_lt r2 (fun x hx => h2 x (List.mem_cons_of_mem _ hx))
      rw [decValue_cons, decValue_cons, hl] at hv
      rw [hl] at hr1
      have hpos : 0 < 10 ^ r2.length := by positivity
      have hq := congrArg (fun n => n / 10 ^ r2.length) hv
      have hm := congrArg (fun n => n % 10 ^ r2.length) hv
      simp only [Nat.mul_add_div hpos, Nat.mul_comm (digitVal _) (10 ^ r2.length),
        Nat.div_eq_of_lt hr1, Nat.div_eq_of_lt hr2, Nat.add_zero, Nat.mul_add_mod,
        Nat.mod_eq_of_lt hr1, Nat.mod_eq_of_lt hr2] at hq hm
      rw [digitVal_inj c d (h1 c (List.mem_cons_self _ _)) (h2 d (List.mem_cons_self _ _)) hq,
        ih r2 hl (fun x hx => h1 x (List.mem_cons_of_mem _ hx))
          (fun x hx => h2 x (List.mem_cons_of_mem _ hx)) hm]

/-- A numeral without a leading zero of k digits stands for an integer from
10^(k-1) on. -/
theorem decValue_ge (c : Char) (rest : List Char) (hc : isDigit c = true) (h0 : c ≠ '0') :
    10 ^ rest.length ≤ decValue (c :: rest) := by
  have h1 : 1 ≤ digitVal c := by
    by_contra hlt
    have hz : digitVal c = 0 := by omega
    have hz0 : digitVal '0' = 0 := rfl
    exact h0 (digitVal_inj c '0' hc (by decide) (by rw [hz, hz0]))
  rw [decValue_cons]
  nlinarith [Nat.zero_le (decValue rest), Nat.zero_le (10 ^ rest.length)]

/-- An integer has one numeral without a leading zero. -/
theorem canonical_unique (a a2 : List Char)
    (hd : ∀ c ∈ a, isDigit c = true) (hd2 : ∀ c ∈ a2, isDigit c = true)
    (hc : a = ['0'] ∨ (a ≠ [] ∧ a.head? ≠ some '0'))
    (hc2 : a2 = ['0'] ∨ (a2 ≠ [] ∧ a2.head? ≠ some '0'))
    (hv : decValue a = decValue a2) : a = a2 := by
  have key : ∀ l : List Char, (∀ c ∈ l, isDigit c = true) →
      l ≠ [] → l.head? ≠ some '0' → 10 ^ (l.length - 1) ≤ decValue l := by
    intro l hl hne hh
    cases l with
    | nil => exact absurd rfl hne
    | cons c rest =>
      have h0 : c ≠ '0' := by
        intro e; apply hh; rw [e]; rfl
      have := decValue_ge c rest (hl c (List.mem_cons_self _ _)) h0
      simpa using this
  have hz : decValue ['0'] = 0 := rfl
  rcases hc with e | ⟨hne, hh⟩
  · rcases hc2 with e2 | ⟨hne2, hh2⟩
    · rw [e, e2]
    · have := key a2 hd2 hne2 hh2
      rw [← hv, e, hz] at this
      have hp : 0 < 10 ^ (a2.length - 1) := by positivity
      omega
  · rcases hc2 with e2 | ⟨hne2, hh2⟩
    · have := key a hd hne hh
      rw [hv, e2, hz] at this
      have hp : 0 < 10 ^ (a.length - 1) := by positivity
      omega
    · have k1 := key a hd hne hh
      have k2 := key a2 hd2 hne2 hh2
      have l1 := decValue_lt a hd
      have l2 := decValue_lt a2 hd2
      have hlen1 : 0 < a.length := List.length_pos.2 hne
      have hlen2 : 0 < a2.length := List.length_pos.2 hne2
      have p1 : a.length - 1 < a2.length :=
        (Nat.pow_lt_pow_iff_right (by norm_num : 1 < 10)).1 (by omega)
      have p2 : a2.length - 1 < a.length :=
        (Nat.pow_lt_pow_iff_right (by norm_num : 1 < 10)).1 (by omega)
      exact decValue_inj a a2 (by omega) hd hd2 hv

/-- The description of the text of toFixed given by fixedText_rounds fits one
text only: an integer part without a leading zero and f decimals that read as
the same integer are the same digits. -/
theorem fixedText_unique (a b a2 b2 : List Char) (hlen : b.length = b2.length)
    (hd : ∀ c ∈ a ++ b, isDigit c = true) (hd2 : ∀ c ∈ a2 ++ b2, isDigit c = true)
    (hc : a = ['0'] ∨ (a ≠ [] ∧ a.head? ≠ some '0'))
    (hc2 : a2 = ['0'] ∨ (a2 ≠ [] ∧ a2.head? ≠ some '0'))
    (hv : decValue (a ++ b) = decValue (a2 ++ b2)) : a = a2 ∧ b = b2 := by
  have hb := decValue_lt b (fun c h => hd c (List.mem_append_right _ h))
  have hb2 := decValue_lt b2 (fun c h => hd2 c (List.mem_append_right _ h))
  rw [decValue_append, decValue_append, hlen] at hv
  rw [hlen] at hb
  have hpos : 0 < 10 ^ b2.length := by positivity
  have hq := congrArg (fun n => n / 10 ^ b2.length) hv
  have hm := congrArg (fun n => n % 10 ^ b2.length) hv
  simp only [Nat.mul_add_div hpos, Nat.mul_comm (decValue _) (10 ^ b2.length),
    Nat.div_eq_of_lt hb, Nat.div_eq_of_lt hb2, Nat.add_zero, Nat.mul_add_mod,
    Nat.mod_eq_of_lt hb, Nat.mod_eq_of_lt hb2] at hq hm
  exact ⟨canonical_unique a a2 (fun c h => hd c (List.mem_append_left _ h))
      (fun c h => hd2 c (List.mem_append_left _ h)) hc hc2 hq,
    decValue_inj b b2 hlen (fun c h => hd c (List.mem_append_right _ h))
      (fun c h => hd2 c (List.mem_append_right _ h)) hm⟩

/-! ## Exporter: theorems -/

theorem foldl_append_eq_concat (f : Record → String) (l : List Record) (acc : String) :
    l.foldl (fun csv item => csv ++ f item) acc = acc ++ concatLines (l.map f) := by
  induction l generalizing acc with
  | nil => simp [concatLines]
  | cons x xs ih =>
    rw [List.foldl_cons, ih, List.map_cons, concatLines, String.append_assoc]

/-- The claim C5 in the words of the specification fails from 10^21 on: the
value of the record 2024-01-01, EUR, 10^21 is not printed with 4 decimals but
in exponent notation, as toFixed does for such a Number. -/
theorem exportCSV_exponent_value :
    exportCSV ⟨[], [⟨"2024-01-01", "EUR", 10 ^ 21⟩], [], []⟩
        = some "Data,Valuta,Curs (RON)\n2024-01-01,EUR,1e+21\n"
      ∧ formatNumber (10 ^ 21) = "1e+21" := by
  decide!

/-- C5, amended: exportCSV produces no text for an empty record set; for a
non-empty set the text is the header line followed by one line
date,currency,value per record in the order of the set; the text is never the
header line alone.  The value of a record whose Number q is finite and below
10^21 in magnitude is printed with exactly 4 decimals: a minus sign when q is
negative, an integer part without a leading zero, the point and 4 digits, the
digits being those of the integer nearest to |q| * 10^4 (the larger one on a
tie).  On the single record 2024-01-01, EUR, 4.9753 the text is the header
line and the line 2024-01-01,EUR,4.9753. -/
theorem exportCSV_spec (st : AppState) :
    (st.filteredData = [] → exportCSV st = none)
    ∧ (st.filteredData ≠ [] →
        exportCSV st
          = some ("Data,Valuta,Curs (RON)\n" ++ concatLines (st.filteredData.map csvLine)))
    ∧ (∀ r : Record,
        csvLine r = r.date ++ "," ++ r.currency ++ "," ++ formatNumber r.value ++ "\n"
        ∧ ∀ q : ℚ, toNum r.value = JSNum.fin q → |q| < 10 ^ 21 →
            ∃ a b : List Char,
              (formatNumber r.value).data = (if q < 0 then ['-'] else []) ++ (a ++ '.' :: b)
                ∧ b.length = 4
                ∧ (∀ c ∈ a ++ b, isDigit c = true)
                ∧ (a = ['0'] ∨ (a ≠ [] ∧ a.head? ≠ some '0'))
                ∧ |q| * 10 ^ 4 - 1 / 2 < (decValue (a ++ b) : ℚ)
                ∧ (decValue (a ++ b) : ℚ) ≤ |q| * 10 ^ 4 + 1 / 2)
    ∧ exportCSV st ≠ some "Data,Valuta,Curs (RON)\n"
    ∧ (st.filteredData = [⟨"2024-01-01", "EUR", 49753 / 10000⟩] →
        exportCSV st = some "Data,Valuta,Curs (RON)\n2024-01-01,EUR,4.9753\n") := by
  have hne : st.filteredData ≠ [] →
      exportCSV st
        = some ("Data,Valuta,Curs (RON)\n" ++ concatLines (st.filteredData.map csvLine)) := by
    intro h
    have hlen : ¬ st.filteredData.length = 0 := by
      intro h0; exact h (List.length_eq_zero.1 h0)
    simp only [exportCSV, hlen, if_false]
    rw [foldl_append_eq_concat (fun item =>
      item.date ++ "," ++ item.currency ++ "," ++ formatNumber item.value ++ "\n")]
    rfl
  refine ⟨?_, hne, ?_, ?_, ?_⟩
  · intro h
    simp [exportCSV, h]
  · intro r
    refine ⟨rfl, ?_⟩
    intro q hq hlt
    have e : formatNumber r.value = fixedText q 4 := by
      unfold formatNumber
      rw [hq]
      rfl
    rw [e]
    exact fixedText_rounds q 4 (by norm_num) hlt
  · by_cases h : st.filteredData = []
    · simp [exportCSV, h]
    · rw [hne h]
      intro he
      have hlen := congrArg String.length (Option.some.inj he)
      obtain ⟨r, rest, hr⟩ := List.exists_cons_of_ne_nil h
      rw [hr] at hlen
      simp only [List.map_cons, concatLines, csvLine, String.length_append] at hlen
      have h1 : ("\n" : String).length = 1 := rfl
      omega
  · intro h
    rw [hne (by rw [h]; simp), h]
    decide!

/-! ## Synthetic data generator: theorems -/

theorem baseRates_nonneg (c : String) : 0 ≤ baseRates c := by
  unfold baseRates
  split_ifs <;> norm_num

/-- The clamp keeps a rate within 90% and 110% of the base rate. -/
theorem clampRate_bounds (c : String) (x : ℚ) :
    baseRates c * (9 / 10) ≤ clampRate c x ∧ clampRate c x ≤ baseRates c * (11 / 10) := by
  have h := baseRates_nonneg c
  unfold clampRate
  refine ⟨le_max_left _ _, max_le ?_ (min_le_left _ _)⟩
  linarith

theorem stepDay_weekend (rand : Nat → ℚ) (s : GenState) (d : DayStep)
    (h : isWeekday d = false) : stepDay rand s d = s := by
  have h2 : d.getDay = 0 ∨ d.getDay = 6 := by
    simp only [isWeekday, Bool.not_eq_false', Bool.or_eq_true, decide_eq_true_eq] at h
    exact h
  simp only [stepDay, h2, if_true]

/-- One weekday of the loop: three draws, and for the currency at position j
of CURRENCIES one more value, the clamp of the perturbed current rate, which
becomes the current rate. -/
theorem stepDay_weekday (rand : Nat → ℚ) (s : GenState) (d : DayStep)
    (h : isWeekday d = true) :
    (stepDay rand s d).draws = s.draws + 3
    ∧ (stepDay rand s d).data.map (fun r => (r.date, r.currency))
        = s.data.map (fun r => (r.date, r.currency))
          ++ CURRENCIES.map (fun c => (d.dateStr, c))
    ∧ (∀ r ∈ (stepDay rand s d).data, r ∈ s.data
        ∨ (r.currency ∈ CURRENCIES ∧ ∃ x, r.value = clampRate r.currency x))
    ∧ ∀ (j : Nat) (c : String), CURRENCIES[j]? = some c →
        (stepDay rand s d).currentRates c
          = clampRate c (s.currentRates c * (1 + (rand (s.draws + j) - 1 / 2) * volatility c))
        ∧ ((stepDay rand s d).data.filter (fun r => decide (r.currency = c))).map
            (fun r => r.value)
          = (s.data.filter (fun r => decide (r.currency = c))).map (fun r => r.value)
            ++ [clampRate c
              (s.currentRates c * (1 + (rand (s.draws + j) - 1 / 2) * volatility c))] := by
  have h2 : ¬ (d.getDay = 0 ∨ d.getDay = 6) := by
    simp only [isWeekday, Bool.not_eq_true', Bool.or_eq_false_iff, decide_eq_false_iff_not] at h
    exact fun h3 => h3.elim h.1 h.2
  have e1 : ("USD" : String) ≠ "EUR" := by decide
  have e2 : ("GBP" : String) ≠ "EUR" := by decide
  have e3 : ("GBP" : String) ≠ "USD" := by decide
  have e4 : ("EUR" : String) ≠ "USD" := by decide
  have e5 : ("EUR" : String) ≠ "GBP" := by decide
  have e6 : ("USD" : String) ≠ "GBP" := by decide
  refine ⟨?_, ?_, ?_, ?_⟩
  · simp [stepDay, h2, CURRENCIES, stepCurrency]
  · simp [stepDay, h2, CURRENCIES, stepCurrency]
  · intro r hr
    simp only [stepDay, h2, if_false, CURRENCIES, List.foldl_cons, List.foldl_nil,
      stepCurrency, List.append_assoc, List.mem_append, List.mem_cons, List.mem_singleton,
      List.not_mem_nil, or_false] at hr
    rcases hr with hr | hr | hr | hr
    · exact Or.inl hr
    · right; rw [hr]; exact ⟨by simp [CURRENCIES], _, rfl⟩
    · right; rw [hr]; exact ⟨by simp [CURRENCIES], _, rfl⟩
    · right; rw [hr]; exact ⟨by simp [CURRENCIES], _, rfl⟩
  · intro j c hj
    have hc : (j = 0 ∧ c = "EUR") ∨ (j = 1 ∧ c = "USD") ∨ (j = 2 ∧ c = "GBP") := by
      match j, hj with
      | 0, hj => left; simpa [CURRENCIES] using hj.symm
      | 1, hj => right; left; simpa [CURRENCIES] using hj.symm
      | 2, hj => right; right; simpa [CURRENCIES] using hj.symm
      | _ + 3, hj => simp [CURRENCIES] at hj
    rcases hc with ⟨rfl, rfl⟩ | ⟨rfl, rfl⟩ | ⟨rfl, rfl⟩
    · simp [stepDay, h2, CURRENCIES, stepCurrency, List.filter_cons, e1, e2, e3, e4, e5, e6]
    · simp [stepDay, h2, CURRENCIES, stepCurrency, List.filter_cons, e1, e2, e3, e4, e5, e6]
    · simp [stepDay, h2, CURRENCIES, stepCurrency, List.filter_cons, e1, e2, e3, e4, e5, e6]

/-- The values of one currency along a run of the loop from any state: those
already emitted, followed by the random walk from the current rate. -/
theorem run_series (rand : Nat → ℚ) (j : Nat) (c : String) (hj : CURRENCIES[j]? = some c)
    (days : List DayStep) (s : GenState) :
    ((days.foldl (stepDay rand) s).data.filter (fun r => decide (r.currency = c))).map
        (fun r => r.value)
      = (s.data.filter (fun r => decide (r.currency = c))).map (fun r => r.value)
        ++ walk c (s.currentRates c)
          ((List.range (days.filter isWeekday).length).map fun i => rand (s.draws + 3 * i + j)) := by
  induction days generalizing s with
  | nil => simp [walk]
  | cons d ds ih =>
    rw [List.foldl_cons]
    cases hd : isWeekday d
    · rw [stepDay_weekend rand s d hd, ih, List.filter_cons_of_neg (by simp [hd])]
    · obtain ⟨h1, -, -, h4⟩ := stepDay_weekday rand s d hd
      obtain ⟨h5, h6⟩ := h4 j c hj
      rw [ih, h6, h5, h1, List.filter_cons_of_pos hd, List.length_cons,
        List.range_succ_eq_map, List.map_cons, List.map_map, walk, List.append_assoc]
      simp only [List.singleton_append, Nat.mul_zero, Nat.add_zero]
      congr 3
      apply List.map_congr_left
      intro i _
      simp only [Function.comp]
      congr 1
      omega

/-- The records emitted along a run of the loop from any state: those already
emitted, then one record per currency for every weekday, each with a clamped
value. -/
theorem run_records (rand : Nat → ℚ) (days : List DayStep) (s : GenState) :
    (days.foldl (stepDay rand) s).data.map (fun r => (r.date, r.currency))
        = s.data.map (fun r => (r.date, r.currency))
          ++ (days.filter isWeekday).flatMap (fun d => CURRENCIES.map fun c => (d.dateStr, c))
    ∧ ∀ r ∈ (days.foldl (stepDay rand) s).data, r ∈ s.data
        ∨ (r.currency ∈ CURRENCIES ∧ ∃ x, r.value = clampRate r.currency x) := by
  induction days generalizing s with
  | nil => exact ⟨by simp, fun r hr => Or.inl hr⟩
  | cons d ds ih =>
    rw [List.foldl_cons]
    cases hd : isWeekday d
    · rw [stepDay_weekend rand s d hd, List.filter_cons_of_neg (by simp [hd])]
      exact ih s
    · obtain ⟨-, h2, h3, -⟩ := stepDay_weekday rand s d hd
      obtain ⟨i1, i2⟩ := ih (stepDay rand s d)
      refine ⟨?_, ?_⟩
      · rw [i1, h2, List.filter_cons_of_pos hd, List.flatMap_cons, List.append_assoc]
      · intro r hr
        rcases i2 r hr with h | h
        · exact h3 r h
        · exact Or.inr h

/-- C11: for every sequence of random draws (in particular those of [0, 1))
and every supported currency with base rate b (EUR 4.97, USD 4.55, GBP 5.78),
every record emitted by generateSimulatedData for that currency has a value v
with b * 0.9 <= v <= b * 1.1.  The values of a currency are its random walk:
each one is the previous value (the base rate at first) perturbed by the
relative change (draw - 0.5) * volatility and then clamped, and the clamped
value is the one carried forward to the next weekday; one record per currency
is emitted for every weekday. -/
theorem generateSimulatedData_bounds (rand : Nat → ℚ) (days : List DayStep) :
    (baseRates "EUR" = 497 / 100 ∧ baseRates "USD" = 455 / 100 ∧ baseRates "GBP" = 578 / 100)
    ∧ (∀ r ∈ generateSimulatedData rand days,
        r.currency ∈ CURRENCIES
        ∧ baseRates r.currency * (9 / 10) ≤ r.value
        ∧ r.value ≤ baseRates r.currency * (11 / 10))
    ∧ (∀ (j : Nat) (c : String), CURRENCIES[j]? = some c →
        ((generateSimulatedData rand days).filter (fun r => decide (r.currency = c))).map
            (fun r => r.value)
          = walk c (baseRates c)
            ((List.range (days.filter isWeekday).length).map fun i => rand (3 * i + j)))
    ∧ (∀ (c : String) (previous draw : ℚ) (draws : List ℚ),
        walk c previous (draw :: draws)
          = clampRate c (previous * (1 + (draw - 1 / 2) * volatility c))
            :: walk c (clampRate c (previous * (1 + (draw - 1 / 2) * volatility c))) draws)
    ∧ (generateSimulatedData rand days).map (fun r => (r.date, r.currency))
        = (days.filter isWeekday).flatMap (fun d => CURRENCIES.map fun c => (d.dateStr, c)) := by
  obtain ⟨h1, h2⟩ := run_records rand days { data := [], currentRates := baseRates, draws := 0 }
  refine ⟨⟨by decide!, by decide!, by decide!⟩, ?_, ?_, fun _ _ _ _ => rfl, ?_⟩
  · intro r hr
    rcases h2 r hr with h | ⟨hc, x, hx⟩
    · simp at h
    · rw [hx]
      exact ⟨hc, clampRate_bounds _ _⟩
  · intro j c hj
    have h := run_series rand j c hj days { data := [], currentRates := baseRates, draws := 0 }
    simpa [generateSimulatedData] using h
  · simpa [generateSimulatedData] using h1

end BNR
